import Mathlib

/-!
# koa-send: the path-validation pipeline of `send`

A shallow embedding of `src/index.js` (function `send` and its helpers
`leadingDot`, `decode`, `isAbsolute`, and the stream cleanup handlers) together
with the parts of the JavaScript runtime the code calls: `decodeURIComponent`,
the loose comparison `-1 == path`, `String.prototype.indexOf`, and the POSIX
flavour of Node's `path` module (`normalize`, `join`, `resolve`, `basename`,
`extname`).

JavaScript strings are modelled as lists of characters (well-formed text: a
code point outside the basic plane is one character, and there are no lone
surrogates).  JavaScript counts positions in UTF-16 code units.  For the first
and the last position, and for a search of ASCII text whose result is compared
with `0` or `-1`, units and characters give the same answer; for `path[1]` and
`path[2]` in `isAbsolute` they do not, so `isAbsolute` is defined on the code
units of the text (`utf16`).
-/

namespace KoaSend

/-- A JavaScript string, as the list of its characters. -/
abbrev JSString := List Char

/-! ## `decodeURIComponent` (ECMAScript `Decode` with an empty reserved set) -/

/-- Value of one hexadecimal digit, `none` when the character is not one. -/
def hexDigit (c : Char) : Option Nat :=
  if '0' ≤ c ∧ c ≤ '9' then some (c.toNat - '0'.toNat)
  else if 'a' ≤ c ∧ c ≤ 'f' then some (c.toNat - 'a'.toNat + 10)
  else if 'A' ≤ c ∧ c ≤ 'F' then some (c.toNat - 'A'.toNat + 10)
  else none

/-- The byte written by the two hexadecimal digits that follow a `%`. -/
def hexByte (h1 h2 : Char) : Option Nat :=
  match hexDigit h1, hexDigit h2 with
  | some a, some b => some (16 * a + b)
  | _, _ => none

/-- One escape `%XX` at the front of the text: its byte and the rest.  `none`
when fewer than three characters are left, the first is not `%`, or the other
two are not hexadecimal digits. -/
def readEscape : JSString → Option (Nat × JSString)
  | p :: h1 :: h2 :: rest =>
    if p = '%' then
      match hexByte h1 h2 with
      | some b => some (b, rest)
      | none => none
    else none
  | _ => none

/-- The number of leading one bits of the first byte of a sequence: the length
the byte announces.  `5` stands for every length above four. -/
def leadingOnes (b : Nat) : Nat :=
  if b < 0x80 then 0
  else if b < 0xC0 then 1
  else if b < 0xE0 then 2
  else if b < 0xF0 then 3
  else if b < 0xF8 then 4
  else 5

/-- The inner loop of `Decode`: read `n` more escapes, each a byte of the form
`10xxxxxx`, and shift their six payload bits into the value `v`. -/
def readContinuations : Nat → Nat → JSString → Option (Nat × JSString)
  | 0, v, s => some (v, s)
  | n + 1, v, s =>
    match readEscape s with
    | some (b, rest) =>
      if 0x80 ≤ b ∧ b < 0xC0 then readContinuations n (v * 64 + (b - 0x80)) rest else none
    | none => none

/-- The character for the value `v` of a sequence of `n` bytes; `none` (a
`URIError`) when the octets are not the UTF-8 encoding of a code point:
overlong forms, surrogates, and values above `0x10FFFF`. -/
def utf8Char (n v : Nat) : Option Char :=
  let lo := if n = 2 then 0x80 else if n = 3 then 0x800 else 0x10000
  if lo ≤ v ∧ v ≤ 0x10FFFF ∧ ¬ (0xD800 ≤ v ∧ v ≤ 0xDFFF) then some (Char.ofNat v) else none

/-- One iteration of the outer loop of `Decode` on a non-empty text: the
character it appends and the text that is left; `none` is the `URIError`. -/
def decodeStep : JSString → Option (Char × JSString)
  | [] => none
  | c :: t =>
    if c ≠ '%' then some (c, t)
    else
      match readEscape (c :: t) with
      | none => none
      | some (b0, s1) =>
        if leadingOnes b0 = 0 then some (Char.ofNat b0, s1)
        else if leadingOnes b0 = 1 ∨ 4 < leadingOnes b0 then none
        else
          match readContinuations (leadingOnes b0 - 1) (b0 % 2 ^ (7 - leadingOnes b0)) s1 with
          | none => none
          | some (v, s2) =>
            match utf8Char (leadingOnes b0) v with
            | some ch => some (ch, s2)
            | none => none

/-- The outer loop of `Decode`, bounded by `fuel` iterations. -/
def decodeLoop : Nat → JSString → Option JSString
  | _, [] => some []
  | 0, _ :: _ => none
  | fuel + 1, c :: t =>
    match decodeStep (c :: t) with
    | none => none
    | some (ch, rest) => (decodeLoop fuel rest).map (ch :: ·)

/-- Model of `decodeURIComponent`: `none` stands for the thrown `URIError`.
Every iteration of the loop consumes at least one character, so the length of
the text bounds the number of iterations. -/
def decodeURIComponent (s : JSString) : Option JSString :=
  decodeLoop s.length s

/-! ## The loose comparison `-1 == path` (ECMAScript `StringToNumber`) -/

/-- The characters `StringToNumber` trims: `WhiteSpace` and `LineTerminator`. -/
def isStrWhiteSpaceChar (c : Char) : Bool :=
  [0x09, 0x0A, 0x0B, 0x0C, 0x0D, 0x20, 0xA0, 0x1680, 0x2028, 0x2029, 0x202F, 0x205F,
    0x3000, 0xFEFF].contains c.toNat || (0x2000 ≤ c.toNat && c.toNat ≤ 0x200A)

/-- Strip leading and trailing white space. -/
def trimString (s : JSString) : JSString :=
  ((s.dropWhile isStrWhiteSpaceChar).reverse.dropWhile isStrWhiteSpaceChar).reverse

/-- Value of a run of decimal digits. -/
def digitsValue (ds : JSString) : Nat :=
  ds.foldl (fun n c => 10 * n + (c.toNat - '0'.toNat)) 0

/-- `ExponentPart`, optional: the empty rest is exponent `0`; otherwise `e` or
`E`, an optional sign and at least one digit, with nothing after. -/
def exponentPart : JSString → Option Int
  | [] => some 0
  | c :: r =>
    if c = 'e' ∨ c = 'E' then
      let ds := if r.head? = some '-' ∨ r.head? = some '+' then r.tail else r
      if ds ≠ [] ∧ ds.all Char.isDigit then
        some (if r.head? = some '-' then -(digitsValue ds : Int) else (digitsValue ds : Int))
      else none
    else none

/-- `StrUnsignedDecimalLiteral` other than `Infinity`: digits, an optional
fraction, an optional exponent, at least one digit before or after the point.
The mathematical value is `mantissa × 10 ^ exponent`. -/
def strUnsignedDecimalLiteral (u : JSString) : Option (Nat × Int) :=
  let ip := u.takeWhile Char.isDigit
  let r1 := u.dropWhile Char.isDigit
  let fp := match r1 with
    | '.' :: r => r.takeWhile Char.isDigit
    | _ => []
  let r2 := match r1 with
    | '.' :: r => r.dropWhile Char.isDigit
    | _ => r1
  if ip = [] ∧ fp = [] then none
  else
    match exponentPart r2 with
    | some e => some (digitsValue (ip ++ fp), e - (fp.length : Int))
    | none => none

/-- The IEEE double nearest to `m × 10 ^ e` is `1`: the value lies between the
midpoints `1 - 2⁻⁵⁴` and `1 + 2⁻⁵³` (both round to `1`, the even neighbour). -/
def roundsToOne (m : Nat) (e : Int) : Bool :=
  if 0 ≤ e then m * 10 ^ e.toNat = 1
  else
    (2 ^ 54 - 1) * 10 ^ (-e).toNat ≤ 2 ^ 54 * m ∧ 2 ^ 53 * m ≤ (2 ^ 53 + 1) * 10 ^ (-e).toNat

/-- The comparison `-1 == s` for a string `s`: `StringToNumber(s)` is `-1`.
After trimming, the text must be `-` followed by an unsigned decimal literal
whose value rounds to `1`. -/
def stringEqNegOne (s : JSString) : Bool :=
  match trimString s with
  | '-' :: u =>
    match strUnsignedDecimalLiteral u with
    | some (m, e) => roundsToOne m e
    | none => false
  | _ => false

/-! ## String helpers -/

/-- Search for `search` in `s`, positions counted from `k`. -/
def indexOfFrom (search : JSString) : JSString → Nat → Int
  | [], k => if search.isPrefixOf [] then (k : Int) else -1
  | c :: s, k => if search.isPrefixOf (c :: s) then (k : Int) else indexOfFrom search s (k + 1)

/-- Model of `String.prototype.indexOf`: the first position at which `search` occurs in `s`,
or `-1`. -/
def indexOf (s search : JSString) : Int := indexOfFrom search s 0

/-- Model of `String.prototype.split` with a one-character separator. -/
def split (sep : Char) : JSString → List JSString
  | [] => [[]]
  | c :: s =>
    if c = sep then [] :: split sep s
    else
      match split sep s with
      | [] => [[c]]
      | seg :: segs => (c :: seg) :: segs

/-- Model of `Array.prototype.join` with a one-character separator. -/
def joinWith (sep : Char) : List JSString → JSString
  | [] => []
  | [a] => a
  | a :: b :: rest => a ++ sep :: joinWith sep (b :: rest)

/-! ## Node's `path` module, POSIX flavour -/

/-- One step of the right-to-left loop of `normalizeArray`: `acc` holds the
parts kept so far and the counter `up`. -/
def normalizeStep (part : JSString) (acc : List JSString × Nat) : List JSString × Nat :=
  if part = ['.'] then acc
  else if part = ['.', '.'] then (acc.1, acc.2 + 1)
  else if acc.2 ≠ 0 then (acc.1, acc.2 - 1)
  else (part :: acc.1, 0)

/-- Model of `normalizeArray(parts, allowAboveRoot)`: resolves `.` and `..`
elements; leading `..` are restored when the path may go above the root. -/
def normalizeArray (parts : List JSString) (allowAboveRoot : Bool) : List JSString :=
  let r := parts.foldr normalizeStep ([], 0)
  if allowAboveRoot then List.replicate r.2 ['.', '.'] ++ r.1 else r.1

/-- The non-empty segments of a path: `path.split('/').filter(p => !!p)`. -/
def segments (path : JSString) : List JSString :=
  (split '/' path).filter (fun p => p ≠ [])

/-- Model of `path.normalize`. -/
def normalize (path : JSString) : JSString :=
  let isAbs := path.head? = some '/'
  let trailingSlash := path.getLast? = some '/'
  let p0 := joinWith '/' (normalizeArray (segments path) (!isAbs))
  let p1 := if p0 = [] ∧ ¬ isAbs then ['.'] else p0
  let p2 := if p1 ≠ [] ∧ trailingSlash then p1 ++ ['/'] else p1
  (if isAbs then ['/'] else []) ++ p2

/-- Model of `path.join`: the non-empty arguments joined by `/`, normalized. -/
def join (paths : List JSString) : JSString :=
  normalize (joinWith '/' (paths.filter (fun p => p ≠ [])))

/-- The expression `s || alt` on strings: `alt` when `s` is empty. -/
def orElse (s alt : JSString) : JSString :=
  if s = [] then alt else s

/-- Model of `path.resolve` with one argument; `cwd` is `process.cwd()`. -/
def resolve (cwd : JSString) (p : JSString) : JSString :=
  let r1 : JSString × Bool := if p = [] then ([], false) else (p ++ ['/'], p.head? = some '/')
  let r2 : JSString × Bool :=
    if r1.2 then r1
    else if cwd = [] then r1
    else (cwd ++ '/' :: r1.1, cwd.head? = some '/')
  let resolvedPath := joinWith '/' (normalizeArray (segments r2.1) (!r2.2))
  orElse ((if r2.2 then ['/'] else []) ++ resolvedPath) ['.']

/-- Model of `path.basename`: the last non-empty segment, empty when there is none. -/
def basename (path : JSString) : JSString :=
  (segments path).getLast?.getD []

/-- Model of `path.extname`: from the last `.` of the basename to its end;
empty when the basename is `..`, has no `.`, or has its only `.` in front. -/
def extname (path : JSString) : JSString :=
  let f := basename path
  let ext := (f.reverse.takeWhile (fun c => c ≠ '.')).reverse
  if f = ['.', '.'] ∨ '.' ∉ f ∨ ext.length + 1 = f.length then [] else '.' :: ext

/-! ## `src/index.js` -/

/-- `leadingDot(path)`: `'.' == basename(path)[0]`. -/
def leadingDot (path : JSString) : Bool :=
  (basename path)[0]? = some '.'

/-- The UTF-16 code units of a character: one unit for a character of the
basic plane, a surrogate pair for a character above it. -/
def utf16Units (c : Char) : List Nat :=
  if c.toNat < 0x10000 then [c.toNat]
  else [0xD800 + (c.toNat - 0x10000) / 0x400, 0xDC00 + (c.toNat - 0x10000) % 0x400]

/-- The UTF-16 code units of a string: what `path[i]` and `path.substring`
count. -/
def utf16 : JSString → List Nat
  | [] => []
  | c :: s => utf16Units c ++ utf16 s

/-- `isAbsolute(path)`: `'/' == path[0]`, or `':' == path[1] && '\\' == path[2]`,
or `'\\\\' == path.substring(0, 2)`, the positions counted in UTF-16 code units. -/
def isAbsolute (path : JSString) : Bool :=
  (utf16 path)[0]? = some '/'.toNat
    || ((utf16 path)[1]? = some ':'.toNat && (utf16 path)[2]? = some '\\'.toNat)
    || (utf16 path).take 2 = ['\\'.toNat, '\\'.toNat]

/-- The values the variable `path` of `send` takes: a string, or the number
`-1` that `decode` returns on failure. -/
inductive PathVal where
  | str (s : JSString)
  | negOne
  deriving DecidableEq, Repr

/-- `ToString` of a value of the variable `path`. -/
def PathVal.toJSString : PathVal → JSString
  | .str s => s
  | .negOne => ['-', '1']

/-- `decode(path)`: `decodeURIComponent(path)`, or `-1` when it throws. -/
def decode (path : PathVal) : PathVal :=
  match decodeURIComponent path.toJSString with
  | some s => .str s
  | none => .negOne

/-- `'/' == path[path.length - 1]`. -/
def trailingSlashOf : PathVal → Bool
  | .str s => s.getLast? = some '/'
  | .negOne => false

/-- The options object of `send`; `none` is an absent field. -/
structure Opts where
  root : Option JSString := none
  index : Option JSString := none
  maxage : Option Nat := none
  hidden : Option Bool := none
  deriving DecidableEq, Repr

/-- Truthiness of an optional string: present and non-empty. -/
def truthy : Option JSString → Bool
  | some s => s ≠ []
  | none => false

/-- Result of the `fs.stat` probe: the modification time, or an error code. -/
inductive StatResult where
  | ok (mtime : Nat)
  | err (code : String)
  deriving DecidableEq, Repr

/-- The observable actions of one run of the generator, in order. -/
inductive Effect where
  | ctxError (msg : String) (status : Nat)
  | fsStat (file : JSString)
  | setLastModified (mtime : Nat)
  | setType (ext : JSString)
  | createReadStream (file : JSString)
  | resOnFinish
  | socketOnError
  deriving DecidableEq, Repr

/-- How one run of the generator ends. -/
inductive Outcome where
  | error (msg : String) (status : Nat)
  | undefined
  | thrown (code : String) (status : Nat)
  | returned (path : JSString)
  deriving DecidableEq, Repr

/-- The closure of the generator function that `send` returns: the options
read at lines 40-43 and the variable `path`, which the body assigns. -/
structure Gen where
  root : JSString
  index : Option JSString
  maxage : Nat
  hidden : Bool
  path : PathVal
  deriving DecidableEq, Repr

/-- What one run of the generator leaves: the closure, the outcome, the effects. -/
structure RunResult where
  gen : Gen
  outcome : Outcome
  trace : List Effect
  deriving DecidableEq, Repr

/-- `send(ctx, path, opts)`, lines 33-43: `none` is the failed `assert(path)`.
The context is always an object, so `assert(ctx)` passes. -/
def send (cwd : JSString) (path : JSString) (opts : Opts) : Option Gen :=
  if path = [] then none
  else some {
    root := if truthy opts.root then resolve cwd (opts.root.getD []) else []
    index := opts.index
    maxage := opts.maxage.getD 0
    hidden := opts.hidden.getD false
    path := .str path }

/-- `return ctx.error(msg, status)`. -/
def ctxError (g : Gen) (msg : String) (status : Nat) : RunResult :=
  ⟨g, .error msg status, [.ctxError msg status]⟩

/-- Lines 72-92: the stat probe and the stream. -/
def statAndStream (fs : JSString → StatResult) (g : Gen) (path : JSString) : RunResult :=
  match fs path with
  | .err code =>
    if ["ENOENT", "ENAMETOOLONG", "ENOTDIR"].contains code then ⟨g, .undefined, [.fsStat path]⟩
    else ⟨g, .thrown code 500, [.fsStat path]⟩
  | .ok mtime =>
    ⟨g, .returned path,
      [.fsStat path, .setLastModified mtime, .setType (extname path), .createReadStream path,
        .resOnFinish, .socketOnError]⟩

/-- Result of lines 46-67: the run has ended early, or `path` is resolved and
has passed the check of line 67. -/
inductive Resolution where
  | exit (r : RunResult)
  | resolved (path : JSString)
  deriving DecidableEq, Repr

/-- Lines 53-67, for a decoded `path` that is a string not equal to `-1`: the
null-byte check, the index file, the root requirement, the two traversal checks.
The result is the early exit, or the path that passed the check of line 67. -/
def checks (g : Gen) (trailingSlash : Bool) (path : JSString) : Resolution :=
  if indexOf path ['\x00'] ≠ -1 then .exit (ctxError { g with path := .str path } "null bytes" 400)
  else
    let path1 := if truthy g.index && trailingSlash then path ++ g.index.getD [] else path
    if g.root = [] ∧ ¬ isAbsolute path1 then
      .exit (ctxError { g with path := .str path1 } "relative paths require the .root option" 500)
    else if g.root = [] ∧ indexOf path1 ['.', '.'] ≠ -1 then
      .exit (ctxError { g with path := .str path1 } "malicious path" 400)
    else
      let path2 := normalize (join [g.root, path1])
      if g.root ≠ [] ∧ indexOf path2 g.root ≠ 0 then
        .exit (ctxError { g with path := .str path2 } "malicious path" 400)
      else .resolved path2

/-- Lines 46-67: decoding and the checks.  The result is the early exit, or
the resolved path with which the run goes on to the hidden-file screen. -/
def resolvePath (g : Gen) : Resolution :=
  let trailingSlash := trailingSlashOf g.path
  match decode g.path with
  | .negOne => .exit (ctxError { g with path := .negOne } "failed to decode" 400)
  | .str path =>
    if stringEqNegOne path then
      .exit (ctxError { g with path := .str path } "failed to decode" 400)
    else checks g trailingSlash path

/-- One run of the generator function, lines 45-92. -/
def Gen.run (fs : JSString → StatResult) (g : Gen) : RunResult :=
  match resolvePath g with
  | .exit r => r
  | .resolved path =>
    if ¬ g.hidden ∧ leadingDot path then ⟨{ g with path := .str path }, .undefined, []⟩
    else statAndStream fs { g with path := .str path } path

/-- A call `send(ctx, path, opts)` followed by one run of the generator it
returns; `none` when the call itself fails. -/
def sendRun (cwd : JSString) (path : JSString) (opts : Opts) (fs : JSString → StatResult) :
    Option RunResult :=
  (send cwd path opts).map (Gen.run fs)

/-! ## Stream cleanup, lines 87-102 -/

/-- State of the cleanup: whether `cleanup` is registered for `finish` on the
response, whether `destroy` is registered for `error` on the socket, and how
often `stream.destroy()` has been called. -/
structure Listeners where
  finish : Bool
  error : Bool
  destroyCalls : Nat
  deriving DecidableEq, Repr

/-- The state after lines 85-90. -/
def opened : Listeners := ⟨true, true, 0⟩

/-- `cleanup()`: both listeners are removed. -/
def cleanup (s : Listeners) : Listeners :=
  { s with finish := false, error := false }

/-- `destroy()`: `stream.destroy()` and then `cleanup()`. -/
def destroy (s : Listeners) : Listeners :=
  cleanup { s with destroyCalls := s.destroyCalls + 1 }

/-- The two events the listeners wait for. -/
inductive Event where
  | finish
  | error
  deriving DecidableEq, Repr

/-- Delivery of one event: the listener runs when it is registered. -/
def emit (e : Event) (s : Listeners) : Listeners :=
  match e with
  | .finish => if s.finish then cleanup s else s
  | .error => if s.error then destroy s else s

/-- Delivery of a sequence of events, in order. -/
def deliver (es : List Event) (s : Listeners) : Listeners :=
  es.foldl (fun s e => emit e s) s

/-- The text of a string literal as a `JSString`. -/
def str (s : String) : JSString := s.toList

/-- The characters a string loosely equal to `-1` can be made of: white space,
digits, signs, the decimal point and the exponent letter. -/
def isNumericChar (c : Char) : Bool :=
  isStrWhiteSpaceChar c || c.isDigit || c = '-' || c = '+' || c = '.' || c = 'e' || c = 'E'

/-- The raw text contains a null byte: the character itself, or its escape `%00`. -/
def containsNul (s : JSString) : Prop :=
  '\x00' ∈ s ∨ ['%', '0', '0'] <:+: s

instance (s : JSString) : Decidable (containsNul s) := by
  unfold containsNul; infer_instance

/-- Containment of a path in a root: equal to it, or below it. -/
def containedIn (root p : JSString) : Prop :=
  p = root ∨ (root ++ ['/']) <+: p

instance (root p : JSString) : Decidable (containedIn root p) := by
  unfold containedIn; infer_instance

/-- The effects that touch the filesystem: `fs.stat` and `fs.createReadStream`. -/
def isFsCall : Effect → Bool
  | .fsStat _ => true
  | .createReadStream _ => true
  | _ => false

/-- No segment of the path is `.` or `..`. -/
def noDotSegments (P : JSString) : Prop :=
  ∀ seg ∈ split '/' P, seg ≠ ['.'] ∧ seg ≠ ['.', '.']

instance (P : JSString) : Decidable (noDotSegments P) := by
  unfold noDotSegments; infer_instance

/-- No two separators follow each other in the path. -/
def noRepeatedSeparators (P : JSString) : Prop :=
  ¬ ['/', '/'] <:+: P

instance (P : JSString) : Decidable (noRepeatedSeparators P) := by
  unfold noRepeatedSeparators; infer_instance

/-- A part of a normalized path: not empty, without separator, not `.` and not `..`. -/
def goodPart (p : JSString) : Prop :=
  p ≠ [] ∧ '/' ∉ p ∧ p ≠ ['.'] ∧ p ≠ ['.', '.']

/-- No two separators follow each other, by recursion on the text. -/
def noDouble : JSString → Bool
  | a :: b :: t => !(a = '/' && b = '/') && noDouble (b :: t)
  | _ => true

/-- The shape of a normalized path: an optional leading separator (`abs`),
good parts joined by single separators, and an optional trailing separator;
a path that is not absolute has at least one part. -/
def canonicalForm (abs : Bool) (P : JSString) : Prop :=
  ∃ (parts : List JSString) (t : Bool),
    (∀ p ∈ parts, goodPart p) ∧ (abs = false → parts ≠ []) ∧ (parts = [] → t = false)
      ∧ P = (if abs then ['/'] else []) ++ (joinWith '/' parts ++ (if t then ['/'] else []))

/-! ## Stream cleanup -/

theorem cleanup_destroyCalls (s : Listeners) : (cleanup s).destroyCalls = s.destroyCalls := rfl

theorem emit_closed (e : Event) (s : Listeners) (hf : s.finish = false) (he : s.error = false) :
    emit e s = s := by
  cases e <;> simp [emit, hf, he]

theorem deliver_closed (es : List Event) (s : Listeners) (hf : s.finish = false)
    (he : s.error = false) : deliver es s = s := by
  induction es with
  | nil => rfl
  | cons e es ih => simp only [deliver, List.foldl_cons] at ih ⊢; rw [emit_closed e s hf he]; exact ih

theorem deliver_cons (e : Event) (es : List Event) (s : Listeners) :
    deliver (e :: es) s = deliver es (emit e s) := rfl

/-- C10. For every sequence of `finish` and `error` events delivered after the
stream is opened, `stream.destroy` is called at most once; when `error` comes
first there is exactly one call, and a later `finish` adds none. -/
theorem single_release (es : List Event) :
    (deliver es opened).destroyCalls ≤ 1
      ∧ (deliver [.error] opened).destroyCalls = 1
      ∧ (deliver (.error :: .finish :: es) opened).destroyCalls = 1 := by
  refine ⟨?_, rfl, ?_⟩
  · cases es with
    | nil => simp [deliver, opened]
    | cons e es =>
      rw [deliver_cons]
      cases e
      · rw [deliver_closed _ _ rfl rfl]; simp [emit, opened, cleanup]
      · rw [deliver_closed _ _ rfl rfl]; simp [emit, opened, cleanup, destroy]
  · rw [deliver_cons, deliver_cons, deliver_closed _ _ rfl rfl]
    rfl

/-! ## Strings loosely equal to `-1` -/

theorem mem_dropWhile_or (p : Char → Bool) (l : List Char) (c : Char) (h : c ∈ l) :
    p c = true ∨ c ∈ l.dropWhile p := by
  induction l with
  | nil => simp at h
  | cons a l ih =>
    by_cases ha : p a = true
    · rw [List.dropWhile_cons_of_pos ha]
      rcases List.mem_cons.1 h with rfl | h'
      · exact Or.inl ha
      · exact ih h'
    · rw [List.dropWhile_cons_of_neg ha]
      exact Or.inr h

theorem mem_trimString_or (s : JSString) (c : Char) (h : c ∈ s) :
    isStrWhiteSpaceChar c = true ∨ c ∈ trimString s := by
  rcases mem_dropWhile_or isStrWhiteSpaceChar s c h with hw | h1
  · exact Or.inl hw
  · rcases mem_dropWhile_or isStrWhiteSpaceChar _ c (List.mem_reverse.2 h1) with hw | h2
    · exact Or.inl hw
    · exact Or.inr (List.mem_reverse.2 h2)

theorem digits_numeric (ds : JSString) (h : ds.all Char.isDigit = true) (c : Char)
    (hc : c ∈ ds) : isNumericChar c = true := by
  have := List.all_eq_true.1 h c hc
  simp [isNumericChar, this]

theorem exponentPart_numeric (r : JSString) (e : Int) (h : exponentPart r = some e) (c : Char)
    (hc : c ∈ r) : isNumericChar c = true := by
  cases r with
  | nil => simp at hc
  | cons a r =>
    rw [exponentPart] at h
    split at h
    · rename_i ha
      have hae : isNumericChar a = true := by
        rcases ha with rfl | rfl <;> decide
      rcases List.mem_cons.1 hc with rfl | hc'
      · exact hae
      · simp only at h
        by_cases hsign : r.head? = some '-' ∨ r.head? = some '+'
        · rw [if_pos hsign] at h
          by_cases hds : r.tail ≠ [] ∧ r.tail.all Char.isDigit = true
          · cases r with
            | nil => simp at hc'
            | cons b t =>
              rcases List.mem_cons.1 hc' with rfl | hc''
              · simp only [List.head?_cons, Option.some.injEq] at hsign
                rcases hsign with rfl | rfl <;> decide
              · exact digits_numeric _ hds.2 c hc''
          · rw [if_neg hds] at h
            simp at h
        · rw [if_neg hsign] at h
          by_cases hds : r ≠ [] ∧ r.all Char.isDigit = true
          · exact digits_numeric _ hds.2 c hc'
          · rw [if_neg hds] at h
            simp at h
    · simp at h

theorem literal_numeric (u : JSString) (me : Nat × Int)
    (h : strUnsignedDecimalLiteral u = some me) (c : Char) (hc : c ∈ u) :
    isNumericChar c = true := by
  unfold strUnsignedDecimalLiteral at h
  simp only at h
  split at h
  · simp at h
  · rw [← List.takeWhile_append_dropWhile Char.isDigit u] at hc
    rcases List.mem_append.1 hc with h1 | h1
    · have := List.mem_takeWhile_imp h1
      simp [isNumericChar, this]
    · generalize u.dropWhile Char.isDigit = r1 at h h1
      split at h
      · rename_i e he
        split at he
        · rename_i r
          rcases List.mem_cons.1 h1 with rfl | h2
          · decide
          · rw [← List.takeWhile_append_dropWhile Char.isDigit r] at h2
            rcases List.mem_append.1 h2 with h3 | h3
            · have := List.mem_takeWhile_imp h3
              simp [isNumericChar, this]
            · exact exponentPart_numeric _ e he c h3
        · exact exponentPart_numeric _ e he c h1
      · simp at h

theorem stringEqNegOne_numeric (s : JSString) (h : stringEqNegOne s = true) (c : Char)
    (hc : c ∈ s) : isNumericChar c = true := by
  rcases mem_trimString_or s c hc with hw | ht
  · simp [isNumericChar, hw]
  · unfold stringEqNegOne at h
    split at h
    · rename_i u hu
      rw [hu] at ht
      split at h
      · rename_i m e hl
        rcases List.mem_cons.1 ht with rfl | h1
        · decide
        · exact literal_numeric u _ hl c h1
      · simp at h
    · simp at h

theorem not_stringEqNegOne_of_mem (s : JSString) (c : Char) (hc : c ∈ s)
    (hn : isNumericChar c = false) : stringEqNegOne s = false := by
  by_contra h
  have := stringEqNegOne_numeric s (by simpa using h) c hc
  rw [hn] at this
  exact Bool.false_ne_true this

/-! ## `indexOf`, `split` and `isAbsolute` -/

theorem indexOfFrom_ne_iff (pat s : JSString) (k : Nat) :
    indexOfFrom pat s k ≠ -1 ↔ pat <:+: s := by
  induction s generalizing k with
  | nil =>
    rw [indexOfFrom]
    by_cases hp : pat.isPrefixOf [] = true
    · rw [if_pos hp]
      have h1 : pat <+: [] := List.isPrefixOf_iff_prefix.1 hp
      exact ⟨fun _ => h1.isInfix, fun _ => by omega⟩
    · rw [if_neg hp]
      constructor
      · intro h; exact absurd rfl h
      · intro h
        have : pat = [] := List.eq_nil_of_infix_nil h
        subst this
        exact absurd rfl hp
  | cons c s ih =>
    rw [indexOfFrom]
    by_cases hp : pat.isPrefixOf (c :: s) = true
    · rw [if_pos hp]
      have h1 : pat <+: c :: s := List.isPrefixOf_iff_prefix.1 hp
      exact ⟨fun _ => h1.isInfix, fun _ => by omega⟩
    · rw [if_neg hp, ih, List.infix_cons_iff]
      constructor
      · exact Or.inr
      · rintro (h | h)
        · exact absurd ( List.isPrefixOf_iff_prefix.2 h) hp
        · exact h

theorem indexOfFrom_ge (pat s : JSString) (k : Nat) :
    indexOfFrom pat s k = -1 ∨ (k : Int) ≤ indexOfFrom pat s k := by
  induction s generalizing k with
  | nil =>
    rw [indexOfFrom]
    split
    · exact Or.inr (le_refl _)
    · exact Or.inl rfl
  | cons c s ih =>
    rw [indexOfFrom]
    split
    · exact Or.inr (le_refl _)
    · rcases ih (k + 1) with h | h
      · exact Or.inl h
      · exact Or.inr (by omega)

theorem indexOf_eq_zero_iff (s pat : JSString) : indexOf s pat = 0 ↔ pat <+: s := by
  unfold indexOf
  cases s with
  | nil =>
    rw [indexOfFrom]
    by_cases hp : pat.isPrefixOf [] = true
    · rw [if_pos hp]
      exact ⟨fun _ => List.isPrefixOf_iff_prefix.1 hp, fun _ => rfl⟩
    · rw [if_neg hp]
      exact ⟨fun h => by omega, fun h => absurd ( List.isPrefixOf_iff_prefix.2 h) hp⟩
  | cons c s =>
    rw [indexOfFrom]
    by_cases hp : pat.isPrefixOf (c :: s) = true
    · rw [if_pos hp]
      exact ⟨fun _ => List.isPrefixOf_iff_prefix.1 hp, fun _ => rfl⟩
    · rw [if_neg hp]
      constructor
      · intro h
        rcases indexOfFrom_ge pat s (0 + 1) with h1 | h1 <;> omega
      · intro h
        exact absurd ( List.isPrefixOf_iff_prefix.2 h) hp

theorem indexOf_ne_iff (s pat : JSString) : indexOf s pat ≠ -1 ↔ pat <:+: s :=
  indexOfFrom_ne_iff pat s 0

theorem indexOf_singleton_ne_iff (s : JSString) (c : Char) : indexOf s [c] ≠ -1 ↔ c ∈ s := by
  rw [indexOf_ne_iff]
  constructor
  · rintro ⟨a, b, rfl⟩
    simp
  · intro h
    obtain ⟨a, b, rfl⟩ := List.append_of_mem h
    exact ⟨a, b, by simp⟩

theorem split_head_tail (sep : Char) (s : JSString) :
    ∃ seg segs, split sep s = seg :: segs ∧ seg <+: s ∧ ∀ x ∈ segs, x <:+: s := by
  induction s with
  | nil => exact ⟨[], [], rfl, List.prefix_refl _, by simp⟩
  | cons c s ih =>
    obtain ⟨seg, segs, hs, hp, hi⟩ := ih
    rw [split]
    by_cases hc : c = sep
    · rw [if_pos hc, hs]
      refine ⟨[], seg :: segs, rfl, List.nil_prefix, ?_⟩
      intro x hx
      rcases List.mem_cons.1 hx with rfl | hx'
      · exact List.infix_cons hp.isInfix
      · exact List.infix_cons (hi x hx')
    · rw [if_neg hc, hs]
      refine ⟨c :: seg, segs, rfl, (List.prefix_cons_inj c).2 hp, ?_⟩
      intro x hx
      exact List.infix_cons (hi x hx)

theorem infix_of_mem_split (sep : Char) (s seg : JSString) (h : seg ∈ split sep s) :
    seg <:+: s := by
  obtain ⟨seg0, segs, hs, hp, hi⟩ := split_head_tail sep s
  rw [hs] at h
  rcases List.mem_cons.1 h with rfl | h'
  · exact hp.isInfix
  · exact hi seg h'

theorem char_eq_of_toNat (a b : Char) (h : a.toNat = b.toNat) : a = b := by
  have := congrArg Char.ofNat h
  simpa [Char.ofNat_toNat] using this

theorem utf16_cons_bmp (c : Char) (s : JSString) (h : c.toNat < 0x10000) :
    utf16 (c :: s) = c.toNat :: utf16 s := by
  rw [utf16, utf16Units, if_pos h]
  rfl

theorem utf16_cons_astral (c : Char) (s : JSString) (h : ¬ c.toNat < 0x10000) :
    ∃ hi lo, utf16 (c :: s) = hi :: lo :: utf16 s ∧ 0xD800 ≤ hi ∧ 0xDC00 ≤ lo := by
  refine ⟨0xD800 + (c.toNat - 0x10000) / 0x400, 0xDC00 + (c.toNat - 0x10000) % 0x400, ?_,
    Nat.le_add_right _ _, Nat.le_add_right _ _⟩
  rw [utf16, utf16Units, if_neg h]
  rfl

/-- The first code unit is a given character below the surrogates exactly
when the first character is. -/
theorem utf16_first (s : JSString) (c : Char) (hc : c.toNat < 0xD800) :
    (utf16 s)[0]? = some c.toNat ↔ s.head? = some c := by
  cases s with
  | nil => simp [utf16]
  | cons a t =>
    by_cases ha : a.toNat < 0x10000
    · rw [utf16_cons_bmp a t ha]
      simp only [List.getElem?_cons_zero, Option.some.injEq, List.head?_cons]
      exact ⟨char_eq_of_toNat a c, fun e => by rw [e]⟩
    · obtain ⟨hi, lo, hu, hhi, -⟩ := utf16_cons_astral a t ha
      rw [hu]
      simp only [List.getElem?_cons_zero, Option.some.injEq, List.head?_cons]
      constructor
      · intro e
        omega
      · intro e
        rw [e] at ha
        omega

/-- What `isAbsolute` accepts: a leading `/`, a drive prefix (one character of
the basic plane, then `:` and `\`), or a leading `\\`. -/
theorem isAbsolute_iff (p : JSString) :
    isAbsolute p = true ↔
      p.head? = some '/'
        ∨ (∃ a t, a.toNat < 0x10000 ∧ p = a :: ':' :: '\\' :: t)
        ∨ (∃ t, p = '\\' :: '\\' :: t) := by
  have h47 : '/'.toNat < 0xD800 := by decide
  have h58 : ':'.toNat < 0xD800 := by decide
  have h92 : '\\'.toNat < 0xD800 := by decide
  unfold isAbsolute
  simp only [Bool.or_eq_true, Bool.and_eq_true, decide_eq_true_eq]
  rw [utf16_first p '/' h47]
  cases p with
  | nil => simp [utf16]
  | cons a t =>
    by_cases ha : a.toNat < 0x10000
    · rw [utf16_cons_bmp a t ha]
      simp only [List.getElem?_cons_succ, List.take_succ_cons, List.cons.injEq]
      cases t with
      | nil => simp [utf16]
      | cons b t' =>
        by_cases hb : b.toNat < 0x10000
        · rw [utf16_cons_bmp b t' hb]
          simp only [List.getElem?_cons_zero, List.getElem?_cons_succ, Option.some.injEq,
            List.take_succ_cons, List.take_zero, List.cons.injEq, and_true]
          rw [utf16_first t' '\\' h92]
          constructor
          · rintro ((h | ⟨h1, h2⟩) | ⟨h1, h2⟩)
            · exact Or.inl h
            · right; left
              cases t' with
              | nil => simp at h2
              | cons c t'' =>
                simp only [List.head?_cons, Option.some.injEq] at h2
                exact ⟨a, t'', ha, rfl, char_eq_of_toNat b ':' h1, by rw [h2]⟩
            · right; right
              exact ⟨t', char_eq_of_toNat a '\\' h1, char_eq_of_toNat b '\\' h2, rfl⟩
          · rintro (h | ⟨a', t'', -, -, e2, e3⟩ | ⟨t'', e1, e2, -⟩)
            · exact Or.inl (Or.inl h)
            · subst e2
              subst e3
              exact Or.inl (Or.inr ⟨rfl, rfl⟩)
            · subst e1
              subst e2
              exact Or.inr ⟨rfl, rfl⟩
        · obtain ⟨hi, lo, hu, hhi, -⟩ := utf16_cons_astral b t' hb
          rw [hu]
          simp only [List.getElem?_cons_zero, Option.some.injEq, List.take_succ_cons,
            List.cons.injEq]
          constructor
          · rintro ((h | ⟨h1, -⟩) | ⟨-, h2, -⟩)
            · exact Or.inl h
            · exfalso
              have : ':'.toNat = 58 := by decide
              omega
            · exfalso
              have : '\\'.toNat = 92 := by decide
              omega
          · rintro (h | ⟨a', t'', -, -, e2, -⟩ | ⟨t'', -, e2, -⟩)
            · exact Or.inl (Or.inl h)
            · exfalso
              rw [e2] at hb
              exact hb (by decide)
            · exfalso
              rw [e2] at hb
              exact hb (by decide)
    · obtain ⟨hi, lo, hu, hhi, hlo⟩ := utf16_cons_astral a t ha
      rw [hu]
      simp only [List.getElem?_cons_succ, List.getElem?_cons_zero, Option.some.injEq,
        List.take_succ_cons, List.cons.injEq]
      constructor
      · rintro ((h | ⟨h1, -⟩) | ⟨h1, -⟩)
        · exact Or.inl h
        · exfalso
          have : ':'.toNat = 58 := by decide
          omega
        · exfalso
          have : '\\'.toNat = 92 := by decide
          omega
      · rintro (h | ⟨a', t'', ha', e1, -⟩ | ⟨t'', e1, -⟩)
        · exact Or.inl (Or.inl h)
        · exfalso
          rw [e1] at ha
          exact ha ha'
        · exfalso
          rw [e1] at ha
          exact ha (by decide)

/-- The positions of `isAbsolute` are code units: a character above the
basic plane takes two, so `:` after it is at `path[2]`, not `path[1]`. -/
theorem isAbsolute_counts_units :
    isAbsolute (Char.ofNat 0x1F600 :: str ":\\x") = false
      ∧ isAbsolute (str "C:\\x") = true ∧ isAbsolute (str "\\\\host") = true
      ∧ isAbsolute (str "/x") = true ∧ isAbsolute (str "x/") = false := by
  decide

theorem isAbsolute_append (d x : JSString) (h : isAbsolute d = true) :
    isAbsolute (d ++ x) = true := by
  rw [isAbsolute_iff] at h ⊢
  rcases h with h | ⟨a, t, ha, rfl⟩ | ⟨t, rfl⟩
  · left
    cases d with
    | nil => simp at h
    | cons c t => simpa using h
  · exact Or.inr (Or.inl ⟨a, t ++ x, ha, rfl⟩)
  · exact Or.inr (Or.inr ⟨t ++ x, rfl⟩)

theorem not_stringEqNegOne_of_isAbsolute (d : JSString) (h : isAbsolute d = true) :
    stringEqNegOne d = false := by
  rw [isAbsolute_iff] at h
  rcases h with h | ⟨a, t, -, rfl⟩ | ⟨t, rfl⟩
  · exact not_stringEqNegOne_of_mem d '/' (List.mem_of_mem_head? h) (by decide)
  · exact not_stringEqNegOne_of_mem _ ':' (by simp) (by decide)
  · exact not_stringEqNegOne_of_mem _ '\\' (by simp) (by decide)

/-! ## `decodeURIComponent`: fuel, and null bytes -/

theorem readEscape_some (s rest : JSString) (b : Nat) (h : readEscape s = some (b, rest)) :
    ∃ x y, s = '%' :: x :: y :: rest ∧ hexByte x y = some b := by
  unfold readEscape at h
  split at h
  · rename_i p h1 h2 r
    split at h
    · rename_i hp
      split at h
      · rename_i b' hb
        simp only [Option.some.injEq, Prod.mk.injEq] at h
        obtain ⟨rfl, rfl⟩ := h
        exact ⟨h1, h2, by rw [hp], hb⟩
      · simp at h
    · simp at h
  · simp at h

theorem readContinuations_length (n : Nat) :
    ∀ (v : Nat) (s : JSString) (v' : Nat) (rest : JSString),
      readContinuations n v s = some (v', rest) → rest.length ≤ s.length := by
  induction n with
  | zero =>
    intro v s v' rest h
    simp only [readContinuations, Option.some.injEq, Prod.mk.injEq] at h
    rw [h.2]
  | succ n ih =>
    intro v s v' rest h
    rw [readContinuations] at h
    split at h
    · rename_i b r hr
      obtain ⟨x, y, rfl, -⟩ := readEscape_some _ _ _ hr
      split at h
      · have := ih _ _ _ _ h
        simp only [List.length_cons]
        omega
      · simp at h
    · simp at h

theorem decodeStep_length (s rest : JSString) (ch : Char) (h : decodeStep s = some (ch, rest)) :
    rest.length < s.length := by
  unfold decodeStep at h
  split at h
  · simp at h
  · rename_i c t
    split at h
    · simp only [Option.some.injEq, Prod.mk.injEq] at h
      rw [← h.2]
      simp
    · split at h
      · simp at h
      · rename_i b0 s1 hr
        obtain ⟨x, y, hs, -⟩ := readEscape_some _ _ _ hr
        rw [hs]
        split at h
        · simp only [Option.some.injEq, Prod.mk.injEq] at h
          rw [← h.2]
          simp only [List.length_cons]
          omega
        · split at h
          · simp at h
          · split at h
            · simp at h
            · rename_i v s2 hc
              have hl := readContinuations_length _ _ _ _ _ hc
              split at h
              · simp only [Option.some.injEq, Prod.mk.injEq] at h
                rw [← h.2]
                simp only [List.length_cons]
                omega
              · simp at h

/-- The bound on the iterations is never what ends the loop: with at least
`length` iterations allowed, the result does not depend on the bound. -/
theorem decodeLoop_fuel (n : Nat) :
    ∀ (s : JSString), s.length ≤ n → decodeLoop n s = decodeLoop s.length s := by
  induction n using Nat.strong_induction_on with
  | _ n ih =>
    intro s hs
    match n, s, hs with
    | _, [], _ => simp [decodeLoop]
    | 0, _ :: _, hs => simp at hs
    | n + 1, c :: t, hs =>
      simp only [List.length_cons, decodeLoop]
      cases hstep : decodeStep (c :: t) with
      | none => rfl
      | some r =>
        obtain ⟨ch, rest⟩ := r
        have hl := decodeStep_length _ _ _ hstep
        simp only [List.length_cons] at hl hs
        simp only
        rw [ih n (Nat.lt_succ_self n) rest (by omega),
          ih t.length (by omega) rest (by omega)]

theorem hexDigit_ne (c : Char) (v : Nat) (h : hexDigit c = some v) : c ≠ '\x00' ∧ c ≠ '%' := by
  have h0 : hexDigit '\x00' = none := by decide
  have h1 : hexDigit '%' = none := by decide
  constructor
  · rintro rfl
    rw [h0] at h
    cases h
  · rintro rfl
    rw [h1] at h
    cases h

theorem hexByte_ne (x y : Char) (b : Nat) (h : hexByte x y = some b) :
    x ≠ '\x00' ∧ x ≠ '%' ∧ y ≠ '\x00' ∧ y ≠ '%' ∧ (x = '0' → y = '0' → b = 0) := by
  unfold hexByte at h
  split at h
  · rename_i a c ha hc
    refine ⟨(hexDigit_ne x a ha).1, (hexDigit_ne x a ha).2, (hexDigit_ne y c hc).1,
      (hexDigit_ne y c hc).2, ?_⟩
    rintro rfl rfl
    have h1 : hexDigit '0' = some 0 := by decide
    rw [h1] at ha hc
    cases ha
    cases hc
    simpa using h.symm
  · simp at h

theorem containsNul_cons (c : Char) (s : JSString) (h : containsNul (c :: s)) :
    c = '\x00' ∨ (c = '%' ∧ ∃ t, s = '0' :: '0' :: t) ∨ containsNul s := by
  rcases h with h | h
  · rcases List.mem_cons.1 h with h1 | h1
    · exact Or.inl h1.symm
    · exact Or.inr (Or.inr (Or.inl h1))
  · rcases List.infix_cons_iff.1 h with h1 | h1
    · obtain ⟨t, ht⟩ := h1
      simp only [List.cons_append, List.nil_append, List.cons.injEq] at ht
      exact Or.inr (Or.inl ⟨ht.1.symm, t, ht.2.symm⟩)
    · exact Or.inr (Or.inr (Or.inr h1))

/-- An escape with a non-zero byte holds no null byte: one in the text is in the rest. -/
theorem containsNul_skip (x y : Char) (t : JSString) (b : Nat)
    (hb : hexByte x y = some b) (h0 : b ≠ 0) (h : containsNul ('%' :: x :: y :: t)) :
    containsNul t := by
  obtain ⟨hx0, hxp, hy0, hyp, hz⟩ := hexByte_ne x y b hb
  rcases containsNul_cons _ _ h with h1 | ⟨-, t', ht⟩ | h1
  · exact absurd h1 (by decide)
  · simp only [List.cons.injEq] at ht
    exact absurd (hz ht.1 ht.2.1) h0
  · rcases containsNul_cons _ _ h1 with h2 | ⟨h2, -⟩ | h2
    · exact absurd h2 hx0
    · exact absurd h2 hxp
    · rcases containsNul_cons _ _ h2 with h3 | ⟨h3, -⟩ | h3
      · exact absurd h3 hy0
      · exact absurd h3 hyp
      · exact h3

theorem readContinuations_nul (n : Nat) :
    ∀ (v : Nat) (s : JSString) (v' : Nat) (rest : JSString),
      readContinuations n v s = some (v', rest) → containsNul s → containsNul rest := by
  induction n with
  | zero =>
    intro v s v' rest h hN
    simp only [readContinuations, Option.some.injEq, Prod.mk.injEq] at h
    rw [← h.2]
    exact hN
  | succ n ih =>
    intro v s v' rest h hN
    rw [readContinuations] at h
    split at h
    · rename_i b r hr
      obtain ⟨x, y, rfl, hb⟩ := readEscape_some _ _ _ hr
      split at h
      · rename_i hrange
        exact ih _ _ _ _ h (containsNul_skip x y r b hb (by omega) hN)
      · simp at h
    · simp at h

theorem decodeStep_nul (s rest : JSString) (ch : Char) (h : decodeStep s = some (ch, rest))
    (hN : containsNul s) : ch = '\x00' ∨ containsNul rest := by
  unfold decodeStep at h
  split at h
  · simp at h
  · rename_i c t
    split at h
    · rename_i hc
      simp only [Option.some.injEq, Prod.mk.injEq] at h
      obtain ⟨rfl, rfl⟩ := h
      rcases containsNul_cons _ _ hN with h1 | ⟨h1, -⟩ | h1
      · exact Or.inl h1
      · exact absurd h1 hc
      · exact Or.inr h1
    · split at h
      · simp at h
      · rename_i b0 s1 hr
        obtain ⟨x, y, hs, hb⟩ := readEscape_some _ _ _ hr
        rw [hs] at hN
        by_cases hb0 : b0 = 0
        · left
          subst hb0
          have h0 : leadingOnes 0 = 0 := by decide
          rw [if_pos h0] at h
          simp only [Option.some.injEq, Prod.mk.injEq] at h
          rw [← h.1]
        · have hN1 : containsNul s1 := containsNul_skip x y s1 b0 hb hb0 hN
          right
          split at h
          · simp only [Option.some.injEq, Prod.mk.injEq] at h
            rw [← h.2]
            exact hN1
          · split at h
            · simp at h
            · split at h
              · simp at h
              · rename_i v s2 hc
                have hN2 := readContinuations_nul _ _ _ _ _ hc hN1
                split at h
                · simp only [Option.some.injEq, Prod.mk.injEq] at h
                  rw [← h.2]
                  exact hN2
                · simp at h

theorem decodeLoop_nul (n : Nat) :
    ∀ (s d : JSString), decodeLoop n s = some d → containsNul s → '\x00' ∈ d := by
  induction n with
  | zero =>
    intro s d h hN
    cases s with
    | nil => exact absurd hN (by decide)
    | cons c t => simp [decodeLoop] at h
  | succ n ih =>
    intro s d h hN
    cases s with
    | nil => exact absurd hN (by decide)
    | cons c t =>
      rw [decodeLoop] at h
      split at h
      · simp at h
      · rename_i ch rest hstep
        cases hrest : decodeLoop n rest with
        | none => simp [hrest] at h
        | some d' =>
          simp only [hrest, Option.map_some', Option.some.injEq] at h
          subst h
          rcases decodeStep_nul _ _ _ hstep hN with rfl | hN'
          · exact List.mem_cons_self _ _
          · exact List.mem_cons_of_mem _ (ih rest d' hrest hN')

theorem decodeURIComponent_nul (s d : JSString) (h : decodeURIComponent s = some d)
    (hN : containsNul s) : '\x00' ∈ d :=
  decodeLoop_nul _ s d h hN

/-! ## The pipeline of `send` -/

theorem send_eq_some (cwd path : JSString) (opts : Opts) (g : Gen)
    (h : send cwd path opts = some g) :
    path ≠ [] ∧ g.path = .str path ∧ g.index = opts.index ∧ g.hidden = opts.hidden.getD false
      ∧ g.root = (if truthy opts.root then resolve cwd (opts.root.getD []) else []) := by
  unfold send at h
  split at h
  · simp at h
  · simp only [Option.some.injEq] at h
    subst h
    exact ⟨by assumption, rfl, rfl, rfl, rfl⟩

/-- C4. When percent-decoding of the raw path fails, the run ends with
`ctx.error('failed to decode', 400)`; this is its only effect, and no path is returned. -/
theorem bad_encoding_rejected (cwd raw : JSString) (opts : Opts) (fs : JSString → StatResult)
    (h : decodeURIComponent raw = none) :
    (sendRun cwd raw opts fs).map (fun r => (r.outcome, r.trace))
      = some (.error "failed to decode" 400, [.ctxError "failed to decode" 400]) := by
  have hne : raw ≠ [] := by
    rintro rfl
    exact absurd h (by decide)
  simp [sendRun, send, hne, Gen.run, resolvePath, decode, PathVal.toJSString, h, ctxError]

theorem bad_encoding_rejected_witness :
    decodeURIComponent (str "/%zz") = none
      ∧ (sendRun (str "/") (str "/%zz") { root := some (str "/srv/www") } (fun _ => .ok 0)).map
          (fun r => (r.outcome, r.trace))
        = some (.error "failed to decode" 400, [.ctxError "failed to decode" 400]) :=
  ⟨by decide, bad_encoding_rejected _ _ _ _ (by decide)⟩

theorem resolvePath_exit (g : Gen) (r : RunResult) (h : resolvePath g = .exit r) :
    ∃ m st, r.outcome = .error m st ∧ r.trace = [.ctxError m st] := by
  unfold resolvePath at h
  split at h
  · simp only [Resolution.exit.injEq] at h
    subst h
    exact ⟨_, _, rfl, rfl⟩
  · split at h
    · simp only [Resolution.exit.injEq] at h
      subst h
      exact ⟨_, _, rfl, rfl⟩
    · unfold checks at h
      simp only at h
      repeat' split at h
      all_goals first
        | (simp only [Resolution.exit.injEq] at h; subst h; exact ⟨_, _, rfl, rfl⟩)
        | simp at h

theorem checks_resolved_iff (g : Gen) (ts : Bool) (d p : JSString) :
    checks g ts d = .resolved p ↔
      indexOf d ['\x00'] = -1
        ∧ ¬ (g.root = [] ∧ ¬ isAbsolute
              (if truthy g.index && ts then d ++ g.index.getD [] else d))
        ∧ ¬ (g.root = [] ∧ indexOf
              (if truthy g.index && ts then d ++ g.index.getD [] else d) ['.', '.'] ≠ -1)
        ∧ ¬ (g.root ≠ [] ∧ indexOf p g.root ≠ 0)
        ∧ p = normalize (join [g.root,
              if truthy g.index && ts then d ++ g.index.getD [] else d]) := by
  unfold checks
  simp only
  generalize (if truthy g.index && ts then d ++ g.index.getD [] else d) = path1
  by_cases h1 : indexOf d ['\x00'] ≠ -1
  · rw [if_pos h1]; simp [h1]
  · rw [if_neg h1]
    by_cases h2 : g.root = [] ∧ ¬ isAbsolute path1
    · rw [if_pos h2]; simp [h2]
    · rw [if_neg h2]
      by_cases h3 : g.root = [] ∧ indexOf path1 ['.', '.'] ≠ -1
      · rw [if_pos h3]; simp [h3]
      · rw [if_neg h3]
        by_cases h4 : g.root ≠ [] ∧ indexOf (normalize (join [g.root, path1])) g.root ≠ 0
        · rw [if_pos h4]
          constructor
          · intro h; simp at h
          · rintro ⟨-, -, -, h5, rfl⟩; exact absurd h4 h5
        · rw [if_neg h4]
          constructor
          · intro h
            simp only [Resolution.resolved.injEq] at h
            subst h
            exact ⟨not_not.mp h1, h2, h3, h4, rfl⟩
          · rintro ⟨-, -, -, -, rfl⟩; rfl

theorem resolvePath_resolved_iff (g : Gen) (p : JSString) :
    resolvePath g = .resolved p ↔
      ∃ d, decode g.path = .str d ∧ stringEqNegOne d = false
        ∧ checks g (trailingSlashOf g.path) d = .resolved p := by
  unfold resolvePath
  simp only
  split
  · rename_i hd
    simp [hd]
  · rename_i d hd
    by_cases hn : stringEqNegOne d = true
    · simp [hd, hn]
    · simp [hd, hn]

theorem resolvePath_hidden (g : Gen) (b : Bool) (p : JSString)
    (h : resolvePath g = .resolved p) : resolvePath { g with hidden := b } = .resolved p := by
  rw [resolvePath_resolved_iff] at h ⊢
  obtain ⟨d, hd, hn, hc⟩ := h
  exact ⟨d, hd, hn, (checks_resolved_iff _ _ _ _).2 ((checks_resolved_iff g _ _ _).1 hc)⟩

theorem statAndStream_fsStat (fs : JSString → StatResult) (g : Gen) (path P : JSString)
    (h : Effect.fsStat P ∈ (statAndStream fs g path).trace) : P = path := by
  unfold statAndStream at h
  split at h
  · split at h <;> simpa using h
  · simpa using h

/-- What the check of line 67 does establish: with a root configured, the
root is a prefix of the resolved path as a string of characters. -/
theorem resolved_starts_with_root (g : Gen) (P : JSString) (h : resolvePath g = .resolved P)
    (hroot : g.root ≠ []) : g.root <+: P := by
  obtain ⟨d, -, -, hc⟩ := (resolvePath_resolved_iff g P).1 h
  have h4 := ((checks_resolved_iff _ _ _ _).1 hc).2.2.2.1
  rw [← indexOf_eq_zero_iff]
  by_contra hne
  exact h4 ⟨hroot, hne⟩

/-- C5. For an input that passes the decode, null-byte, root and containment
checks, when the hidden option is false and the basename of the resolved path
starts with `.`, the run returns `undefined` with no effect at all (no
`ctx.error`, no body); this is the outcome of a run that reaches the stat
probe on the same path and finds the file missing (`ENOENT`). -/
theorem hidden_file_ignored (cwd raw : JSString) (opts : Opts) (fs : JSString → StatResult)
    (g : Gen) (p : JSString)
    (hs : send cwd raw opts = some g) (hp : resolvePath g = .resolved p)
    (hh : opts.hidden.getD false = false) (hd : (basename p)[0]? = some '.') :
    (g.run fs).outcome = .undefined ∧ (g.run fs).trace = []
      ∧ ∀ fs', fs' p = .err "ENOENT" →
          (Gen.run fs' { g with hidden := true }).outcome = (g.run fs).outcome := by
  have hg : g.hidden = false := by rw [(send_eq_some _ _ _ _ hs).2.2.2.1, hh]
  have hrun : g.run fs = ⟨{ g with path := .str p }, .undefined, []⟩ := by
    simp [Gen.run, hp, hg, leadingDot, hd]
  refine ⟨by rw [hrun], by rw [hrun], ?_⟩
  intro fs' hfs
  rw [hrun]
  simp [Gen.run, resolvePath_hidden g true p hp, statAndStream, hfs]

theorem hidden_file_ignored_witness :
    send (str "/") (str "/.env") { root := some (str "/srv/www") }
        = some ⟨str "/srv/www", none, 0, false, .str (str "/.env")⟩
      ∧ resolvePath ⟨str "/srv/www", none, 0, false, .str (str "/.env")⟩
        = .resolved (str "/srv/www/.env")
      ∧ (Gen.run (fun _ => .ok 0) ⟨str "/srv/www", none, 0, false, .str (str "/.env")⟩).outcome
        = .undefined :=
  ⟨by decide, by decide,
    (hidden_file_ignored (str "/") (str "/.env") { root := some (str "/srv/www") }
      (fun _ => .ok 0) ⟨str "/srv/www", none, 0, false, .str (str "/.env")⟩
      (str "/srv/www/.env") (by decide) (by decide) (by decide) (by decide)).1⟩

/-- C6, as the code has it. With the hidden option false, whenever the run
reaches the stat probe on a path `P`, the basename of `P` (its last segment)
does not begin with `.`. -/
theorem hidden_basename_not_probed (cwd raw : JSString) (opts : Opts)
    (fs : JSString → StatResult) (g : Gen) (P : JSString)
    (hs : send cwd raw opts = some g) (hh : opts.hidden.getD false = false)
    (hP : Effect.fsStat P ∈ (g.run fs).trace) :
    (basename P)[0]? ≠ some '.' := by
  have hg : g.hidden = false := by rw [(send_eq_some _ _ _ _ hs).2.2.2.1, hh]
  unfold Gen.run at hP
  split at hP
  · rename_i r hr
    obtain ⟨m, st, -, ht⟩ := resolvePath_exit g r hr
    rw [ht] at hP
    simp at hP
  · rename_i path hr
    split at hP
    · simp at hP
    · rename_i hscreen
      have := statAndStream_fsStat _ _ _ _ hP
      subst this
      simpa [hg, leadingDot] using hscreen

theorem hidden_basename_not_probed_witness :
    Effect.fsStat (str "/srv/www/a.txt")
        ∈ (Gen.run (fun _ => .ok 0) ⟨str "/srv/www", none, 0, false, .str (str "/a.txt")⟩).trace
      ∧ (basename (str "/srv/www/a.txt"))[0]? ≠ some '.' :=
  ⟨by decide,
    hidden_basename_not_probed (str "/") (str "/a.txt") { root := some (str "/srv/www") }
      (fun _ => .ok 0) ⟨str "/srv/www", none, 0, false, .str (str "/a.txt")⟩
      (str "/srv/www/a.txt") (by decide) (by decide) (by decide)⟩

/-- C6, as stated, fails: with the hidden option unset, `/.git/config` under
the root `/srv/www` reaches the stat probe and is returned, although the
segment `.git` below the root begins with `.`. -/
theorem hidden_directory_served :
    (sendRun (str "/") (str "/.git/config") { root := some (str "/srv/www") }
        (fun _ => .ok 0)).map (fun r => (r.outcome, r.trace.head?))
      = some (.returned (str "/srv/www/.git/config"),
          some (.fsStat (str "/srv/www/.git/config")))
      ∧ segments (str "/srv/www/.git/config") = [str "srv", str "www", str ".git", str "config"]
      ∧ (str ".git")[0]? = some '.' := by
  decide

/-- C7. The index name is appended to the decoded path exactly when the index
option is set and the raw path ends with `/`: every resolved path is
`normalize(join(root, decoded + index))` in that case and
`normalize(join(root, decoded))` otherwise; a raw path that ends in the
encoded separator `%2F` gets no index. -/
theorem index_substitution (cwd raw : JSString) (opts : Opts) (g : Gen) (d P : JSString)
    (hs : send cwd raw opts = some g) (hd : decodeURIComponent raw = some d)
    (hP : resolvePath g = .resolved P) :
    P = normalize (join [g.root,
          d ++ (if truthy opts.index ∧ raw.getLast? = some '/' then opts.index.getD [] else [])])
      ∧ (str "%2F" <:+ raw → P = normalize (join [g.root, d])) := by
  obtain ⟨-, hpath, hidx, -, -⟩ := send_eq_some _ _ _ _ hs
  obtain ⟨d', hd', -, hc⟩ := (resolvePath_resolved_iff g P).1 hP
  have hdd : d' = d := by
    rw [hpath] at hd'
    simp only [decode, PathVal.toJSString, hd, PathVal.str.injEq] at hd'
    exact hd'.symm
  subst hdd
  have hP' := ((checks_resolved_iff _ _ _ _).1 hc).2.2.2.2
  rw [hpath, hidx] at hP'
  simp only [trailingSlashOf] at hP'
  constructor
  · rw [hP']
    by_cases hc1 : truthy opts.index = true <;> by_cases hc2 : raw.getLast? = some '/' <;>
      simp [hc1, hc2]
  · rintro ⟨t, rfl⟩
    have hl : (t ++ str "%2F").getLast? ≠ some '/' := by
      simp [str]
    have hb : (truthy opts.index && decide ((t ++ str "%2F").getLast? = some '/')) = false := by
      rw [decide_eq_false hl, Bool.and_false]
    rw [hP', if_neg (by rw [hb]; exact Bool.false_ne_true)]

theorem index_substitution_witness :
    (send (str "/") (str "/docs/")
          { root := some (str "/srv/www"), index := some (str "index.html") }
        = some ⟨str "/srv/www", some (str "index.html"), 0, false, .str (str "/docs/")⟩
      ∧ decodeURIComponent (str "/docs/") = some (str "/docs/")
      ∧ resolvePath ⟨str "/srv/www", some (str "index.html"), 0, false, .str (str "/docs/")⟩
        = .resolved (join [str "/srv/www", str "docs", str "index.html"]))
      ∧ join [str "/srv/www", str "docs", str "index.html"]
        = normalize (join [str "/srv/www", str "/docs/" ++ str "index.html"]) :=
  ⟨⟨by decide, by decide, by decide⟩,
    (index_substitution (str "/") (str "/docs/")
      { root := some (str "/srv/www"), index := some (str "index.html") }
      ⟨str "/srv/www", some (str "index.html"), 0, false, .str (str "/docs/")⟩
      (str "/docs/") (join [str "/srv/www", str "docs", str "index.html"])
      (by decide) (by decide) (by decide)).1⟩

/-- C1 fails on the code. With root `/srv/public`, the raw path
`/../public-secret/x` passes the check of line 67 and resolves to
`/srv/public-secret/x`, a path in a sibling directory that is neither the root
nor below it; with the file present the run returns that path. -/
theorem sibling_directory_resolved :
    send (str "/") (str "/../public-secret/x") { root := some (str "/srv/public") }
        = some ⟨str "/srv/public", none, 0, false, .str (str "/../public-secret/x")⟩
      ∧ resolvePath ⟨str "/srv/public", none, 0, false, .str (str "/../public-secret/x")⟩
        = .resolved (str "/srv/public-secret/x")
      ∧ ¬ containedIn (str "/srv/public") (str "/srv/public-secret/x")
      ∧ (sendRun (str "/") (str "/../public-secret/x") { root := some (str "/srv/public") }
            (fun _ => .ok 0)).map (fun r => r.outcome)
          = some (.returned (str "/srv/public-secret/x")) := by
  decide

/-- C2 fails on the code. With root `/srv/www`, the raw path
`/../www-backup/db.sql` decodes, has no null byte, and
`normalize(join(root, path))` is `/srv/www-backup/db.sql`, which is not
contained in the root; the run does not end with an error but goes on to the
stat probe on that path. -/
theorem traversal_to_sibling_not_rejected :
    decodeURIComponent (str "/../www-backup/db.sql") = some (str "/../www-backup/db.sql")
      ∧ '\x00' ∉ str "/../www-backup/db.sql"
      ∧ normalize (join [str "/srv/www", str "/../www-backup/db.sql"])
        = str "/srv/www-backup/db.sql"
      ∧ ¬ containedIn (str "/srv/www") (str "/srv/www-backup/db.sql")
      ∧ (sendRun (str "/") (str "/../www-backup/db.sql") { root := some (str "/srv/www") }
            (fun _ => .err "ENOENT")).map (fun r => (r.outcome, r.trace))
          = some (.undefined, [.fsStat (str "/srv/www-backup/db.sql")]) := by
  decide

/-- The scenario of the specification: root `/srv/www`, request
`/../../etc/passwd`, is rejected as a malicious path with status 400. -/
theorem passwd_traversal_rejected :
    (sendRun (str "/") (str "/../../etc/passwd") { root := some (str "/srv/www") }
        (fun _ => .ok 0)).map (fun r => (r.outcome, r.trace))
      = some (.error "malicious path" 400, [.ctxError "malicious path" 400]) := by
  decide

theorem orElse_ne_nil (s alt : JSString) (h : alt ≠ []) : orElse s alt ≠ [] := by
  unfold orElse
  split
  · exact h
  · assumption

theorem resolve_ne_nil (cwd p : JSString) : resolve cwd p ≠ [] :=
  orElse_ne_nil _ _ (by simp)

/-- What the check of line 67 does reject: with a root configured, a path that
decodes, is not loosely equal to `-1`, has no null byte, and whose normalized
join with the root does not start with the characters of the root. -/
theorem out_of_bounds_rejected (cwd raw : JSString) (opts : Opts) (fs : JSString → StatResult)
    (d : JSString) (hne : raw ≠ []) (hroot : truthy opts.root = true)
    (hd : decodeURIComponent raw = some d) (hneg : stringEqNegOne d = false)
    (hnul : '\x00' ∉ d)
    (hout : ¬ (resolve cwd (opts.root.getD []) <+:
      normalize (join [resolve cwd (opts.root.getD []),
        if truthy opts.index && decide (raw.getLast? = some '/')
          then d ++ opts.index.getD [] else d]))) :
    (sendRun cwd raw opts fs).map (fun r => (r.outcome, r.trace))
      = some (.error "malicious path" 400, [.ctxError "malicious path" 400]) := by
  have hn0 : ¬ indexOf d ['\x00'] ≠ -1 := by
    rw [indexOf_singleton_ne_iff]
    exact hnul
  have hr := resolve_ne_nil cwd (opts.root.getD [])
  rw [← indexOf_eq_zero_iff] at hout
  simp only [sendRun, send, if_neg hne, hroot, if_true, Option.map_some',
    Gen.run, resolvePath, decode, PathVal.toJSString, hd, hneg, Bool.false_eq_true, if_false,
    checks, if_neg hn0, trailingSlashOf, hr, false_and, ne_eq, not_false_eq_true, true_and,
    if_pos hout, ctxError]

/-- What the check of line 60 does reject: with no root, a path that decodes,
is not loosely equal to `-1`, has no null byte and is not absolute. -/
theorem root_required_unless_sentinel (cwd raw : JSString) (opts : Opts)
    (fs : JSString → StatResult) (d : JSString) (hne : raw ≠ [])
    (hroot : truthy opts.root = false) (hd : decodeURIComponent raw = some d)
    (hneg : stringEqNegOne d = false) (hnul : '\x00' ∉ d)
    (habs : isAbsolute (if truthy opts.index && decide (raw.getLast? = some '/')
      then d ++ opts.index.getD [] else d) = false) :
    (sendRun cwd raw opts fs).map (fun r => (r.outcome, r.trace))
      = some (.error "relative paths require the .root option" 500,
          [.ctxError "relative paths require the .root option" 500]) := by
  have hn0 : ¬ indexOf d ['\x00'] ≠ -1 := by
    rw [indexOf_singleton_ne_iff]
    exact hnul
  simp only [sendRun, send, if_neg hne, hroot, Bool.false_eq_true, if_false, Option.map_some',
    Gen.run, resolvePath, decode, PathVal.toJSString, hd, hneg, checks, if_neg hn0,
    trailingSlashOf, habs, not_false_eq_true, and_self, if_true, ctxError]

/-- C8 fails on the code. With no root, the raw path `-1` decodes to itself,
has no null byte and is not absolute, yet the run ends with
`ctx.error('failed to decode', 400)`, not with the root-required error: the
decoded string is loosely equal to the failure value `-1` of `decode`. -/
theorem sentinel_path_reported_undecodable :
    decodeURIComponent (str "-1") = some (str "-1")
      ∧ '\x00' ∉ str "-1"
      ∧ isAbsolute (str "-1") = false
      ∧ (sendRun (str "/") (str "-1") {} (fun _ => .ok 0)).map (fun r => (r.outcome, r.trace))
        = some (.error "failed to decode" 400, [.ctxError "failed to decode" 400]) := by
  decide

/-- The scenario of the specification: no root, request `relative/path`, ends
with the root-required error and status 500. -/
theorem relative_path_requires_root :
    (sendRun (str "/") (str "relative/path") {} (fun _ => .ok 0)).map
        (fun r => (r.outcome, r.trace))
      = some (.error "relative paths require the .root option" 500,
          [.ctxError "relative paths require the .root option" 500]) := by
  decide

/-- C9. With the root option empty or unset, a raw path that decodes to an
absolute path without null byte that has a `..` segment ends the run with
`ctx.error('malicious path', 400)`: this is the only effect (no stat probe),
and the variable `path` still holds the decoded text (with the index name, if
one was appended), not a normalized path. -/
theorem early_traversal_screen (cwd raw : JSString) (opts : Opts) (fs : JSString → StatResult)
    (d : JSString) (hroot : truthy opts.root = false) (hd : decodeURIComponent raw = some d)
    (habs : isAbsolute d = true) (hnul : '\x00' ∉ d) (hseg : ['.', '.'] ∈ split '/' d) :
    (sendRun cwd raw opts fs).map (fun r => (r.outcome, r.trace, r.gen.path))
      = some (.error "malicious path" 400, [.ctxError "malicious path" 400],
          .str (if truthy opts.index && decide (raw.getLast? = some '/')
            then d ++ opts.index.getD [] else d)) := by
  have hne : raw ≠ [] := by
    rintro rfl
    have : d = [] := by
      have h0 : decodeURIComponent [] = some [] := by decide
      rw [h0] at hd
      exact (Option.some.inj hd).symm
    subst this
    exact absurd habs (by decide)
  have hneg : stringEqNegOne d = false := not_stringEqNegOne_of_isAbsolute d habs
  have hn0 : ¬ indexOf d ['\x00'] ≠ -1 := by
    rw [indexOf_singleton_ne_iff]
    exact hnul
  have hinf : ['.', '.'] <:+: d := infix_of_mem_split '/' d _ hseg
  generalize hp1 : (if truthy opts.index && decide (raw.getLast? = some '/')
    then d ++ opts.index.getD [] else d) = path1
  have habs1 : isAbsolute path1 = true := by
    rw [← hp1]
    split
    · exact isAbsolute_append d _ habs
    · exact habs
  have hdots : indexOf path1 ['.', '.'] ≠ -1 := by
    rw [indexOf_ne_iff, ← hp1]
    split
    · exact hinf.trans (List.prefix_append d _).isInfix
    · exact hinf
  simp only [sendRun, send, if_neg hne, hroot, Bool.false_eq_true, if_false, Option.map_some',
    Gen.run, resolvePath, decode, PathVal.toJSString, hd, hneg, checks, if_neg hn0,
    trailingSlashOf, hp1, habs1, not_true_eq_false, and_false, true_and, if_pos hdots, ctxError]

theorem early_traversal_screen_witness :
    (truthy (none : Option JSString) = false
      ∧ decodeURIComponent (str "/srv/%2e%2e/etc") = some (str "/srv/../etc")
      ∧ isAbsolute (str "/srv/../etc") = true ∧ '\x00' ∉ str "/srv/../etc"
      ∧ ['.', '.'] ∈ split '/' (str "/srv/../etc"))
      ∧ (sendRun (str "/") (str "/srv/%2e%2e/etc") {} (fun _ => .ok 0)).map
          (fun r => (r.outcome, r.trace, r.gen.path))
        = some (.error "malicious path" 400, [.ctxError "malicious path" 400],
            .str (str "/srv/../etc")) :=
  ⟨by decide,
    early_traversal_screen (str "/") (str "/srv/%2e%2e/etc") {} (fun _ => .ok 0)
      (str "/srv/../etc") (by decide) (by decide) (by decide) (by decide) (by decide)⟩

/-- C3, as the code has it. For every raw path that contains a null byte,
literal or as the escape `%00`, and whose percent-decoding succeeds, and for
every configuration, the run ends with `ctx.error('null bytes', 400)`. -/
theorem null_byte_rejected (cwd raw : JSString) (opts : Opts) (fs : JSString → StatResult)
    (d : JSString) (hN : containsNul raw) (hd : decodeURIComponent raw = some d) :
    (sendRun cwd raw opts fs).map (fun r => (r.outcome, r.trace))
      = some (.error "null bytes" 400, [.ctxError "null bytes" 400]) := by
  have hne : raw ≠ [] := by
    rintro rfl
    exact absurd hN (by decide)
  have hmem : '\x00' ∈ d := decodeURIComponent_nul raw d hd hN
  have hneg : stringEqNegOne d = false := not_stringEqNegOne_of_mem d '\x00' hmem (by decide)
  have hidx : indexOf d ['\x00'] ≠ -1 := (indexOf_singleton_ne_iff d '\x00').2 hmem
  simp only [sendRun, send, if_neg hne, Option.map_some', Gen.run, resolvePath, decode,
    PathVal.toJSString, hd, hneg, Bool.false_eq_true, if_false, checks, if_pos hidx, ctxError]

theorem null_byte_rejected_witness :
    (containsNul (str "/%00x") ∧ decodeURIComponent (str "/%00x") = some ['/', '\x00', 'x'])
      ∧ (sendRun (str "/") (str "/%00x") { root := some (str "/srv/www") } (fun _ => .ok 0)).map
          (fun r => (r.outcome, r.trace))
        = some (.error "null bytes" 400, [.ctxError "null bytes" 400]) :=
  ⟨by decide,
    null_byte_rejected (str "/") (str "/%00x") { root := some (str "/srv/www") }
      (fun _ => .ok 0) ['/', '\x00', 'x'] (by decide) (by decide)⟩

/-- C3, as stated, fails: the raw path `/%00%zz` contains the escape `%00`, but
its decoding fails on `%zz`, and the run ends with
`ctx.error('failed to decode', 400)`, not with the null-byte rejection. -/
theorem null_byte_with_bad_escape :
    containsNul (str "/%00%zz")
      ∧ (sendRun (str "/") (str "/%00%zz") { root := some (str "/srv/www") }
            (fun _ => .ok 0)).map (fun r => r.outcome)
          = some (.error "failed to decode" 400)
      ∧ (sendRun (str "/") (str "/%00%zz") { root := some (str "/srv/www") }
            (fun _ => .ok 0)).map (fun r => r.outcome)
          ≠ some (.error "null bytes" 400) := by
  decide

/-! ## Stream cleanup: the first trigger -/

/-- C11, as the code has it. Whichever of `finish` and `error` is delivered
first after the stream is opened, both listeners are removed by it, so that
no later event changes anything; `stream.destroy` is called exactly once when
the first event is `error`, and not at all when it is `finish`. -/
theorem first_trigger_closes (e : Event) (es : List Event) :
    (emit e opened).finish = false ∧ (emit e opened).error = false
      ∧ deliver (e :: es) opened = emit e opened
      ∧ (deliver (e :: es) opened).destroyCalls = (if e = .error then 1 else 0) := by
  have h1 : (emit e opened).finish = false := by cases e <;> rfl
  have h2 : (emit e opened).error = false := by cases e <;> rfl
  have h3 : deliver (e :: es) opened = emit e opened := by
    rw [deliver_cons, deliver_closed _ _ h1 h2]
  refine ⟨h1, h2, h3, ?_⟩
  rw [h3]
  cases e <;> rfl

/-- C11, as stated, fails: when `finish` is delivered first, `stream.destroy`
is not called, neither by it nor by an `error` that follows. -/
theorem finish_first_never_destroys :
    (deliver [.finish] opened).destroyCalls = 0
      ∧ (deliver [.finish, .error] opened).destroyCalls = 0
      ∧ (deliver [.finish] opened).destroyCalls ≠ 1 := by
  decide

/-! ## The stat probe and the stream -/

theorem run_of_resolved (fs : JSString → StatResult) (g : Gen) (p : JSString)
    (hp : resolvePath g = .resolved p) (hscreen : g.hidden = true ∨ leadingDot p = false) :
    g.run fs = statAndStream fs { g with path := .str p } p := by
  unfold Gen.run
  rw [hp]
  simp only
  rw [if_neg]
  rintro ⟨h1, h2⟩
  rcases hscreen with h | h
  · exact h1 h
  · rw [h] at h2
    exact Bool.false_ne_true h2

/-- C12. When the stat probe on the resolved path fails with the code `c`, the
run returns `undefined` exactly when `c` is `ENOENT`, `ENAMETOOLONG` or
`ENOTDIR`; for every other code it throws the error with status 500. In both
cases the probe is the only effect: no body is set. -/
theorem stat_error_classification (fs : JSString → StatResult) (g : Gen) (p : JSString)
    (c : String) (hp : resolvePath g = .resolved p)
    (hscreen : g.hidden = true ∨ leadingDot p = false) (hc : fs p = .err c) :
    ((g.run fs).outcome = .undefined ↔ c ∈ ["ENOENT", "ENAMETOOLONG", "ENOTDIR"])
      ∧ (c ∉ ["ENOENT", "ENAMETOOLONG", "ENOTDIR"] → (g.run fs).outcome = .thrown c 500)
      ∧ (g.run fs).trace = [.fsStat p] := by
  rw [run_of_resolved fs g p hp hscreen]
  unfold statAndStream
  rw [hc]
  simp only
  by_cases hm : c ∈ ["ENOENT", "ENAMETOOLONG", "ENOTDIR"]
  · have hb : ["ENOENT", "ENAMETOOLONG", "ENOTDIR"].contains c = true := by simpa using hm
    rw [if_pos hb]
    exact ⟨⟨fun _ => hm, fun _ => rfl⟩, fun h => absurd hm h, rfl⟩
  · have hb : ¬ ["ENOENT", "ENAMETOOLONG", "ENOTDIR"].contains c = true := by simpa using hm
    rw [if_neg hb]
    refine ⟨⟨fun h => ?_, fun h => absurd h hm⟩, fun _ => rfl, rfl⟩
    simp at h

theorem stat_error_classification_witness :
    (resolvePath ⟨str "/srv/www", none, 0, false, .str (str "/a.txt")⟩
        = .resolved (str "/srv/www/a.txt")
      ∧ (false = true ∨ leadingDot (str "/srv/www/a.txt") = false)
      ∧ (fun _ => StatResult.err "EACCES") (str "/srv/www/a.txt") = .err "EACCES")
      ∧ (Gen.run (fun _ => .err "EACCES")
          ⟨str "/srv/www", none, 0, false, .str (str "/a.txt")⟩).outcome
        = .thrown "EACCES" 500 :=
  ⟨⟨by decide, by decide, rfl⟩,
    (stat_error_classification (fun _ => .err "EACCES")
      ⟨str "/srv/www", none, 0, false, .str (str "/a.txt")⟩ (str "/srv/www/a.txt") "EACCES"
      (by decide) (by decide) rfl).2.1 (by decide)⟩

/-- C16. When the input passes validation and the stat probe on the resolved
path succeeds with modification time `mtime`, the run sets `Last-Modified`
from `mtime`, sets the type to the extension of the resolved path, sets the
body to a read stream on exactly the resolved path, registers the two
listeners, and returns the resolved path. -/
theorem successful_open (fs : JSString → StatResult) (g : Gen) (p : JSString) (mtime : Nat)
    (hp : resolvePath g = .resolved p) (hscreen : g.hidden = true ∨ leadingDot p = false)
    (hok : fs p = .ok mtime) :
    (g.run fs).outcome = .returned p
      ∧ (g.run fs).trace
        = [.fsStat p, .setLastModified mtime, .setType (extname p), .createReadStream p,
            .resOnFinish, .socketOnError] := by
  rw [run_of_resolved fs g p hp hscreen]
  unfold statAndStream
  rw [hok]
  exact ⟨rfl, rfl⟩

theorem successful_open_witness :
    (send (str "/") (str "/report.csv") { root := some (str "/srv/www") }
        = some ⟨str "/srv/www", none, 0, false, .str (str "/report.csv")⟩
      ∧ resolvePath ⟨str "/srv/www", none, 0, false, .str (str "/report.csv")⟩
        = .resolved (str "/srv/www/report.csv")
      ∧ extname (str "/srv/www/report.csv") = str ".csv")
      ∧ ((Gen.run (fun _ => .ok 1700000000)
            ⟨str "/srv/www", none, 0, false, .str (str "/report.csv")⟩).outcome
          = .returned (str "/srv/www/report.csv")
        ∧ (Gen.run (fun _ => .ok 1700000000)
            ⟨str "/srv/www", none, 0, false, .str (str "/report.csv")⟩).trace
          = [.fsStat (str "/srv/www/report.csv"), .setLastModified 1700000000,
              .setType (extname (str "/srv/www/report.csv")),
              .createReadStream (str "/srv/www/report.csv"), .resOnFinish, .socketOnError]) :=
  ⟨by decide,
    successful_open (fun _ => .ok 1700000000)
      ⟨str "/srv/www", none, 0, false, .str (str "/report.csv")⟩ (str "/srv/www/report.csv")
      1700000000 (by decide) (by decide) rfl⟩

/-! ## Validation comes before the filesystem -/

theorem run_of_exit (fs : JSString → StatResult) (g : Gen) (r : RunResult)
    (h : resolvePath g = .exit r) : g.run fs = r := by
  unfold Gen.run
  rw [h]

theorem run_of_screened (fs : JSString → StatResult) (g : Gen) (p : JSString)
    (hp : resolvePath g = .resolved p) (hh : g.hidden = false) (hd : leadingDot p = true) :
    g.run fs = ⟨{ g with path := .str p }, .undefined, []⟩ := by
  unfold Gen.run
  rw [hp]
  simp only
  rw [if_pos ⟨by rw [hh]; exact Bool.false_ne_true, hd⟩]

theorem statAndStream_outcome (fs : JSString → StatResult) (g : Gen) (p : JSString) (m : String)
    (st : Nat) : (statAndStream fs g p).outcome ≠ .error m st := by
  unfold statAndStream
  split
  · split <;> simp
  · simp

theorem statAndStream_calls (fs : JSString → StatResult) (g : Gen) (p f : JSString)
    (h : Effect.fsStat f ∈ (statAndStream fs g p).trace
      ∨ Effect.createReadStream f ∈ (statAndStream fs g p).trace) : f = p := by
  unfold statAndStream at h
  split at h
  · split at h <;> simpa using h
  · simpa using h

/-- A run whose path was resolved does not end with `ctx.error`. -/
theorem run_resolved_not_error (fs : JSString → StatResult) (g : Gen) (p : JSString)
    (hp : resolvePath g = .resolved p) (m : String) (st : Nat) :
    (g.run fs).outcome ≠ .error m st := by
  by_cases hs : g.hidden = true ∨ leadingDot p = false
  · rw [run_of_resolved fs g p hp hs]
    exact statAndStream_outcome _ _ _ _ _
  · have h1 : g.hidden = false := by
      cases hg : g.hidden
      · rfl
      · exact absurd (Or.inl hg) hs
    have h2 : leadingDot p = true := by
      cases hl : leadingDot p
      · exact absurd (Or.inr hl) hs
      · rfl
    rw [run_of_screened fs g p hp h1 h2]
    simp

/-- C13. In the trace of a run, a filesystem call (`fs.stat`,
`fs.createReadStream`) occurs only when decoding succeeded with a text not
equal to `-1` and the null-byte, root-required, traversal, containment and
hidden-file checks have all passed, and then only on the resolved path; a run
that ends with `ctx.error`, and a run stopped by the hidden-file screen, have
a trace without filesystem call. -/
theorem validation_before_filesystem (fs : JSString → StatResult) (g : Gen) :
    ((g.run fs).trace.any isFsCall = true →
        ∃ d p, decode g.path = .str d ∧ stringEqNegOne d = false
          ∧ indexOf d ['\x00'] = -1
          ∧ ¬ (g.root = [] ∧ ¬ isAbsolute
                (if truthy g.index && trailingSlashOf g.path then d ++ g.index.getD [] else d))
          ∧ ¬ (g.root = [] ∧ indexOf
                (if truthy g.index && trailingSlashOf g.path then d ++ g.index.getD [] else d)
                ['.', '.'] ≠ -1)
          ∧ ¬ (g.root ≠ [] ∧ indexOf p g.root ≠ 0)
          ∧ p = normalize (join [g.root,
                if truthy g.index && trailingSlashOf g.path then d ++ g.index.getD [] else d])
          ∧ (g.hidden = true ∨ leadingDot p = false)
          ∧ ∀ f, (Effect.fsStat f ∈ (g.run fs).trace
              ∨ Effect.createReadStream f ∈ (g.run fs).trace) → f = p)
      ∧ (∀ m st, (g.run fs).outcome = .error m st → (g.run fs).trace.any isFsCall = false)
      ∧ (∀ p, resolvePath g = .resolved p → g.hidden = false → leadingDot p = true →
          (g.run fs).outcome = .undefined ∧ (g.run fs).trace = []) := by
  refine ⟨?_, ?_, ?_⟩
  · intro hany
    cases hr : resolvePath g with
    | exit r =>
      obtain ⟨m, st, -, ht⟩ := resolvePath_exit g r hr
      rw [run_of_exit fs g r hr, ht] at hany
      simp [isFsCall] at hany
    | resolved p =>
      by_cases hs : g.hidden = true ∨ leadingDot p = false
      · obtain ⟨d, hd, hn, hc⟩ := (resolvePath_resolved_iff g p).1 hr
        obtain ⟨c1, c2, c3, c4, c5⟩ := (checks_resolved_iff _ _ _ _).1 hc
        refine ⟨d, p, hd, hn, c1, c2, c3, c4, c5, hs, ?_⟩
        intro f hf
        rw [run_of_resolved fs g p hr hs] at hf
        exact statAndStream_calls _ _ _ _ hf
      · have h1 : g.hidden = false := by
          cases hg : g.hidden
          · rfl
          · exact absurd (Or.inl hg) hs
        have h2 : leadingDot p = true := by
          cases hl : leadingDot p
          · exact absurd (Or.inr hl) hs
          · rfl
        rw [run_of_screened fs g p hr h1 h2] at hany
        simp at hany
  · intro m st ho
    cases hr : resolvePath g with
    | exit r =>
      obtain ⟨m', st', -, ht⟩ := resolvePath_exit g r hr
      rw [run_of_exit fs g r hr, ht]
      simp [isFsCall]
    | resolved p => exact absurd ho (run_resolved_not_error fs g p hr m st)
  · intro p hp hh hd
    rw [run_of_screened fs g p hp hh hd]
    exact ⟨rfl, rfl⟩

theorem validation_before_filesystem_witness :
    (Gen.run (fun _ => .ok 0) ⟨str "/srv/www", none, 0, false, .str (str "/a.txt")⟩).trace.any
        isFsCall = true
      ∧ ∃ d p, decode (.str (str "/a.txt")) = .str d ∧ stringEqNegOne d = false
          ∧ p = str "/srv/www/a.txt" ∧ (false = true ∨ leadingDot p = false) :=
  ⟨by decide, by
    obtain ⟨d, p, h1, h2, -, -, -, -, h7, h8, -⟩ :=
      (validation_before_filesystem (fun _ => .ok 0)
        ⟨str "/srv/www", none, 0, false, .str (str "/a.txt")⟩).1 (by decide)
    refine ⟨d, p, h1, h2, ?_, h8⟩
    have hd : d = str "/a.txt" := by
      have : decode (.str (str "/a.txt")) = .str (str "/a.txt") := by decide
      rw [this] at h1
      exact (PathVal.str.inj h1).symm
    rw [h7, hd]
    decide⟩

/-! ## The failure value of `decode` -/

theorem checks_exit_outcome (g : Gen) (ts : Bool) (d : JSString) (r : RunResult)
    (h : checks g ts d = .exit r) :
    r.outcome = .error "null bytes" 400
      ∨ r.outcome = .error "relative paths require the .root option" 500
      ∨ r.outcome = .error "malicious path" 400 := by
  unfold checks at h
  simp only at h
  generalize (if truthy g.index && ts then d ++ g.index.getD [] else d) = path1 at h
  by_cases h1 : indexOf d ['\x00'] ≠ -1
  · rw [if_pos h1] at h
    simp only [Resolution.exit.injEq] at h
    subst h
    exact Or.inl rfl
  · rw [if_neg h1] at h
    by_cases h2 : g.root = [] ∧ ¬ isAbsolute path1
    · rw [if_pos h2] at h
      simp only [Resolution.exit.injEq] at h
      subst h
      exact Or.inr (Or.inl rfl)
    · rw [if_neg h2] at h
      by_cases h3 : g.root = [] ∧ indexOf path1 ['.', '.'] ≠ -1
      · rw [if_pos h3] at h
        simp only [Resolution.exit.injEq] at h
        subst h
        exact Or.inr (Or.inr rfl)
      · rw [if_neg h3] at h
        by_cases h4 : g.root ≠ [] ∧ indexOf (normalize (join [g.root, path1])) g.root ≠ 0
        · rw [if_pos h4] at h
          simp only [Resolution.exit.injEq] at h
          subst h
          exact Or.inr (Or.inr rfl)
        · rw [if_neg h4] at h
          simp at h

theorem resolvePath_of_decoded (g : Gen) (d : JSString) (hd : decode g.path = .str d)
    (hneg : stringEqNegOne d = false) :
    resolvePath g = checks g (trailingSlashOf g.path) d := by
  unfold resolvePath
  simp only
  rw [hd]
  simp only
  rw [if_neg (by rw [hneg]; exact Bool.false_ne_true)]

/-- What line 51 does: a run ends with `ctx.error('failed to decode', 400)`
exactly when decoding failed or the decoded text is loosely equal to `-1`. -/
theorem failed_to_decode_iff (fs : JSString → StatResult) (g : Gen) :
    (g.run fs).outcome = .error "failed to decode" 400 ↔
      decode g.path = .negOne ∨ ∃ d, decode g.path = .str d ∧ stringEqNegOne d = true := by
  cases hd : decode g.path with
  | negOne =>
    have hr : resolvePath g
        = .exit (ctxError { g with path := .negOne } "failed to decode" 400) := by
      unfold resolvePath
      simp only
      rw [hd]
    rw [run_of_exit fs g _ hr]
    exact ⟨fun _ => Or.inl rfl, fun _ => rfl⟩
  | str d =>
    by_cases hn : stringEqNegOne d = true
    · have hr : resolvePath g
          = .exit (ctxError { g with path := .str d } "failed to decode" 400) := by
        unfold resolvePath
        simp only
        rw [hd]
        simp only
        rw [if_pos hn]
      rw [run_of_exit fs g _ hr]
      exact ⟨fun _ => Or.inr ⟨d, rfl, hn⟩, fun _ => rfl⟩
    · have hn' : stringEqNegOne d = false := by simpa using hn
      constructor
      · intro ho
        exfalso
        have hr := resolvePath_of_decoded g d hd hn'
        cases hc : checks g (trailingSlashOf g.path) d with
        | exit r =>
          rw [hc] at hr
          rw [run_of_exit fs g r hr] at ho
          rcases checks_exit_outcome g _ d r hc with h | h | h <;>
            · rw [h] at ho
              exact absurd ho (by decide)
        | resolved p =>
          rw [hc] at hr
          exact run_resolved_not_error fs g p hr _ _ ho
      · rintro (h | ⟨d', h1, h2⟩)
        · cases h
        · cases h1
          exact absurd h2 hn

/-- C17 fails on the code. The raw paths `%2D1` and `-1` are validly encoded:
both decode to the text `-1`. With root `/srv/www` the run ends with
`ctx.error('failed to decode', 400)` for both, because the decoded string is
loosely equal to the failure value `-1` of `decode`. -/
theorem encoded_sentinel_reported_undecodable :
    decodeURIComponent (str "%2D1") = some (str "-1")
      ∧ (sendRun (str "/") (str "%2D1") { root := some (str "/srv/www") }
            (fun _ => .ok 0)).map (fun r => (r.outcome, r.trace))
          = some (.error "failed to decode" 400, [.ctxError "failed to decode" 400])
      ∧ decodeURIComponent (str "-1") = some (str "-1")
      ∧ (sendRun (str "/") (str "-1") { root := some (str "/srv/www") }
            (fun _ => .ok 0)).map (fun r => (r.outcome, r.trace))
          = some (.error "failed to decode" 400, [.ctxError "failed to decode" 400]) := by
  decide

/-! ## The two `malicious path` checks -/

/-- What lines 61 and 67 do: for a decoded text that passed the decode,
null-byte and root-required checks, the run ends with
`ctx.error('malicious path', 400)` exactly when there is no root and the text
contains `..`, or there is a root and the resolved path does not start with it. -/
theorem malicious_path_iff (fs : JSString → StatResult) (g : Gen) (d : JSString)
    (hd : decode g.path = .str d) (hneg : stringEqNegOne d = false)
    (hnul : indexOf d ['\x00'] = -1)
    (habs : g.root = [] → isAbsolute
      (if truthy g.index && trailingSlashOf g.path then d ++ g.index.getD [] else d) = true) :
    (g.run fs).outcome = .error "malicious path" 400 ↔
      (g.root = [] ∧ indexOf
          (if truthy g.index && trailingSlashOf g.path then d ++ g.index.getD [] else d)
          ['.', '.'] ≠ -1)
        ∨ (g.root ≠ [] ∧ indexOf (normalize (join [g.root,
            if truthy g.index && trailingSlashOf g.path then d ++ g.index.getD [] else d]))
          g.root ≠ 0) := by
  have hr := resolvePath_of_decoded g d hd hneg
  generalize hp1 : (if truthy g.index && trailingSlashOf g.path
    then d ++ g.index.getD [] else d) = path1 at habs ⊢
  have h1 : ¬ indexOf d ['\x00'] ≠ -1 := fun h => h hnul
  have h2 : ¬ (g.root = [] ∧ ¬ isAbsolute path1 = true) := fun h => h.2 (habs h.1)
  unfold checks at hr
  simp only at hr
  rw [hp1, if_neg h1, if_neg h2] at hr
  by_cases h3 : g.root = [] ∧ indexOf path1 ['.', '.'] ≠ -1
  · rw [if_pos h3] at hr
    rw [run_of_exit fs g _ hr]
    exact ⟨fun _ => Or.inl h3, fun _ => rfl⟩
  · rw [if_neg h3] at hr
    by_cases h4 : g.root ≠ [] ∧ indexOf (normalize (join [g.root, path1])) g.root ≠ 0
    · rw [if_pos h4] at hr
      rw [run_of_exit fs g _ hr]
      exact ⟨fun _ => Or.inr h4, fun _ => rfl⟩
    · rw [if_neg h4] at hr
      constructor
      · intro ho
        exact absurd ho (run_resolved_not_error fs g _ hr _ _)
      · rintro (h | h)
        · exact absurd h h3
        · exact absurd h h4

/-- C18. For a raw path that decodes to an absolute text without null byte:
with the root option empty or unset, the run ends with
`ctx.error('malicious path', 400)` if and only if the decoded text, after the
index substitution, contains the two characters `..` anywhere; with a root
configured, it ends so if and only if the resolved path does not start with
the root, whatever the text contains. -/
theorem dotdot_substring_screen (cwd raw : JSString) (opts : Opts) (fs : JSString → StatResult)
    (d : JSString) (hd : decodeURIComponent raw = some d) (habs : isAbsolute d = true)
    (hnul : '\x00' ∉ d) :
    (truthy opts.root = false →
        ((sendRun cwd raw opts fs).map (fun r => r.outcome) = some (.error "malicious path" 400)
          ↔ ['.', '.'] <:+: (if truthy opts.index && decide (raw.getLast? = some '/')
              then d ++ opts.index.getD [] else d)))
      ∧ (truthy opts.root = true →
        ((sendRun cwd raw opts fs).map (fun r => r.outcome) = some (.error "malicious path" 400)
          ↔ ¬ (resolve cwd (opts.root.getD []) <+:
              normalize (join [resolve cwd (opts.root.getD []),
                if truthy opts.index && decide (raw.getLast? = some '/')
                  then d ++ opts.index.getD [] else d])))) := by
  have hne : raw ≠ [] := by
    rintro rfl
    have : d = [] := by
      have h0 : decodeURIComponent [] = some [] := by decide
      rw [h0] at hd
      exact (Option.some.inj hd).symm
    subst this
    exact absurd habs (by decide)
  have hneg : stringEqNegOne d = false := not_stringEqNegOne_of_isAbsolute d habs
  have hn0 : indexOf d ['\x00'] = -1 := by
    by_contra h
    exact hnul ((indexOf_singleton_ne_iff d '\x00').1 h)
  obtain ⟨g, hg⟩ : ∃ g, send cwd raw opts = some g := by
    unfold send
    rw [if_neg hne]
    exact ⟨_, rfl⟩
  obtain ⟨-, hpath, hidx, -, hroot⟩ := send_eq_some _ _ _ _ hg
  have hdec : decode g.path = .str d := by
    rw [hpath]
    simp only [decode, PathVal.toJSString, hd]
  have hrun : (sendRun cwd raw opts fs).map (fun r => r.outcome) = some (g.run fs).outcome := by
    simp only [sendRun, hg, Option.map_some']
  have habs1 : isAbsolute
      (if truthy g.index && trailingSlashOf g.path then d ++ g.index.getD [] else d) = true := by
    split
    · exact isAbsolute_append d _ habs
    · exact habs
  have hm := malicious_path_iff fs g d hdec hneg hn0 (fun _ => habs1)
  rw [hrun, Option.some.injEq, hm, hpath, hidx]
  simp only [trailingSlashOf]
  constructor
  · intro ht
    rw [ht, if_neg Bool.false_ne_true] at hroot
    rw [hroot, indexOf_ne_iff]
    simp
  · intro ht
    rw [ht, if_pos rfl] at hroot
    have hr := resolve_ne_nil cwd (opts.root.getD [])
    rw [hroot, ← indexOf_eq_zero_iff]
    simp [hr]

theorem dotdot_substring_screen_witness :
    (decodeURIComponent (str "/a..b") = some (str "/a..b") ∧ isAbsolute (str "/a..b") = true
      ∧ '\x00' ∉ str "/a..b" ∧ ['.', '.'] <:+: str "/a..b"
      ∧ ['.', '.'] ∉ split '/' (str "/a..b"))
      ∧ (sendRun (str "/") (str "/a..b") {} (fun _ => .ok 0)).map (fun r => r.outcome)
          = some (.error "malicious path" 400)
      ∧ (sendRun (str "/") (str "/a..b") { root := some (str "/srv/www") }
            (fun _ => .ok 0)).map (fun r => r.outcome)
          = some (.returned (str "/srv/www/a..b")) :=
  ⟨by decide,
    ((dotdot_substring_screen (str "/") (str "/a..b") {} (fun _ => .ok 0) (str "/a..b")
      (by decide) (by decide) (by decide)).1 (by decide)).2 (by decide),
    by decide⟩

/-! ## One call, one run -/

/-- A run assigns the variable `path` and nothing else of the closure. -/
theorem run_changes_only_path (fs : JSString → StatResult) (g : Gen) :
    (g.run fs).gen = { g with path := (g.run fs).gen.path } := by
  cases hr : resolvePath g with
  | exit r =>
    rw [run_of_exit fs g r hr]
    unfold resolvePath at hr
    simp only at hr
    split at hr
    · simp only [Resolution.exit.injEq] at hr
      subst hr
      rfl
    · split at hr
      · simp only [Resolution.exit.injEq] at hr
        subst hr
        rfl
      · unfold checks at hr
        simp only at hr
        repeat' split at hr
        all_goals first
          | (simp only [Resolution.exit.injEq] at hr; subst hr; rfl)
          | simp at hr
  | resolved p =>
    unfold Gen.run
    rw [hr]
    simp only
    split
    · rfl
    · unfold statAndStream
      split
      · split <;> rfl
      · rfl

theorem decodeLoop_no_percent (s : JSString) :
    ∀ n, s.length ≤ n → '%' ∉ s → decodeLoop n s = some s := by
  induction s with
  | nil =>
    intro n _ _
    cases n <;> rfl
  | cons c t ih =>
    intro n hn hp
    have hc : c ≠ '%' := fun e => hp (by rw [e]; exact List.mem_cons_self _ _)
    have ht : '%' ∉ t := fun e => hp (List.mem_cons_of_mem _ e)
    cases n with
    | zero => simp at hn
    | succ m =>
      have hstep : decodeStep (c :: t) = some (c, t) := by
        rw [decodeStep, if_pos hc]
      rw [decodeLoop, hstep]
      simp only
      rw [ih m (by simpa using hn) ht]
      rfl

/-- Decoding a text without `%` gives the text back. -/
theorem decodeURIComponent_no_percent (s : JSString) (h : '%' ∉ s) :
    decodeURIComponent s = some s :=
  decodeLoop_no_percent s s.length (le_refl _) h

/-- The value a run that ends with `ctx.error('failed to decode', 400)` leaves
in `path`: the number `-1`, or a decoded text loosely equal to it. -/
theorem failed_to_decode_path (fs : JSString → StatResult) (g : Gen)
    (h : (g.run fs).outcome = .error "failed to decode" 400) :
    (g.run fs).gen.path = .negOne
      ∨ ∃ d, (g.run fs).gen.path = .str d ∧ stringEqNegOne d = true := by
  rcases (failed_to_decode_iff fs g).1 h with hd | ⟨d, hd, hn⟩
  · left
    have hr : resolvePath g
        = .exit (ctxError { g with path := .negOne } "failed to decode" 400) := by
      unfold resolvePath
      simp only
      rw [hd]
    rw [run_of_exit fs g _ hr]
    rfl
  · right
    have hr : resolvePath g
        = .exit (ctxError { g with path := .str d } "failed to decode" 400) := by
      unfold resolvePath
      simp only
      rw [hd]
      simp only
      rw [if_pos hn]
    rw [run_of_exit fs g _ hr]
    exact ⟨d, rfl, hn⟩

/-- The filesystem enters a run through the stat probe on the resolved path only. -/
theorem run_congr_fs (fs fs' : JSString → StatResult) (g : Gen)
    (h : ∀ P, resolvePath g = .resolved P → fs' P = fs P) : g.run fs' = g.run fs := by
  unfold Gen.run
  cases hr : resolvePath g with
  | exit r => rfl
  | resolved P =>
    simp only
    split
    · rfl
    · unfold statAndStream
      rw [h P hr]

/-- C14, as the code has it. Resolving twice with the same raw path and
configuration yields the same outcome, effects and resolved path whenever
the stat probe on the resolved path answers alike: nothing else enters a run.
Of the variables the generator closes over, a run assigns only `path`, so a
second run of the same generator is the first run of a new call of `send` on
the text the first run left in `path`; it repeats the first run when that
text is the raw path, and it ends with `ctx.error('failed to decode', 400)`
again when the first run ended so. -/
theorem resolving_twice (cwd raw : JSString) (opts : Opts) (fs : JSString → StatResult)
    (g : Gen) (hs : send cwd raw opts = some g) :
    (∀ g' fs', send cwd raw opts = some g' →
        (∀ P, resolvePath g = .resolved P → fs' P = fs P) → g'.run fs' = g.run fs)
      ∧ (∀ P, (g.run fs).gen.path = .str P → P ≠ [] →
          send cwd P opts = some (g.run fs).gen)
      ∧ ((g.run fs).gen.path = .str raw → (g.run fs).gen.run fs = g.run fs)
      ∧ ((g.run fs).outcome = .error "failed to decode" 400 →
          ((g.run fs).gen.run fs).outcome = .error "failed to decode" 400) := by
  have hgen := run_changes_only_path fs g
  obtain ⟨hne, hpath, -, -, -⟩ := send_eq_some _ _ _ _ hs
  refine ⟨?_, ?_, ?_, ?_⟩
  · intro g' fs' hs' hfs
    have hg : g' = g := Option.some.inj (hs'.symm.trans hs)
    subst hg
    exact run_congr_fs fs fs' g' hfs
  · intro P hP hPne
    rw [hgen, hP]
    unfold send at hs ⊢
    rw [if_neg hne] at hs
    rw [if_neg hPne]
    simp only [Option.some.injEq] at hs ⊢
    rw [← hs]
  · intro hP
    have hg : (g.run fs).gen = g := by
      rw [hgen, hP, ← hpath]
    rw [hg]
  · intro hfail
    apply (failed_to_decode_iff fs (g.run fs).gen).2
    rcases failed_to_decode_path fs g hfail with h | ⟨d, h, hn⟩
    · right
      refine ⟨str "-1", ?_, by decide⟩
      rw [h]
      decide
    · right
      refine ⟨d, ?_, hn⟩
      have hp : '%' ∉ d := fun hm => by
        have := stringEqNegOne_numeric d hn '%' hm
        exact absurd this (by decide)
      rw [h]
      simp only [decode, PathVal.toJSString, decodeURIComponent_no_percent d hp]

theorem resolving_twice_witness :
    (send (str "/") (str "/a/b.txt") {} = some ⟨[], none, 0, false, .str (str "/a/b.txt")⟩
      ∧ (Gen.run (fun _ => .ok 0) ⟨[], none, 0, false, .str (str "/a/b.txt")⟩).gen.path
        = .str (str "/a/b.txt"))
      ∧ Gen.run (fun _ => .ok 0)
          (Gen.run (fun _ => .ok 0) ⟨[], none, 0, false, .str (str "/a/b.txt")⟩).gen
        = Gen.run (fun _ => .ok 0) ⟨[], none, 0, false, .str (str "/a/b.txt")⟩ :=
  ⟨by decide,
    (resolving_twice (str "/") (str "/a/b.txt") {} (fun _ => .ok 0)
      ⟨[], none, 0, false, .str (str "/a/b.txt")⟩ (by decide)).2.2.1 (by decide)⟩

/-- C14, as stated, fails: the generator of `send(ctx, '/a.txt', {root:
'/srv/www'})`, run twice against a filesystem that holds `/srv/www/a.txt`
and nothing else, returns `/srv/www/a.txt` the first time; the second run
starts from that text, probes `/srv/www/srv/www/a.txt` and returns `undefined`. -/
theorem second_run_differs :
    send (str "/") (str "/a.txt") { root := some (str "/srv/www") }
        = some ⟨str "/srv/www", none, 0, false, .str (str "/a.txt")⟩
      ∧ (Gen.run (fun p => if p = str "/srv/www/a.txt" then .ok 0 else .err "ENOENT")
          ⟨str "/srv/www", none, 0, false, .str (str "/a.txt")⟩).outcome
        = .returned (str "/srv/www/a.txt")
      ∧ (Gen.run (fun p => if p = str "/srv/www/a.txt" then .ok 0 else .err "ENOENT")
          (Gen.run (fun p => if p = str "/srv/www/a.txt" then .ok 0 else .err "ENOENT")
            ⟨str "/srv/www", none, 0, false, .str (str "/a.txt")⟩).gen).outcome
        = .undefined
      ∧ (Gen.run (fun p => if p = str "/srv/www/a.txt" then .ok 0 else .err "ENOENT")
          (Gen.run (fun p => if p = str "/srv/www/a.txt" then .ok 0 else .err "ENOENT")
            ⟨str "/srv/www", none, 0, false, .str (str "/a.txt")⟩).gen).trace
        = [.fsStat (str "/srv/www/srv/www/a.txt")] := by
  decide

/-! ## `split` and `joinWith` -/

theorem split_ne_nil (sep : Char) (s : JSString) : split sep s ≠ [] := by
  obtain ⟨seg, segs, h, -, -⟩ := split_head_tail sep s
  rw [h]
  exact List.cons_ne_nil _ _

theorem split_cons_sep (sep : Char) (s : JSString) : split sep (sep :: s) = [] :: split sep s := by
  rw [split, if_pos rfl]

theorem split_cons_ne (sep c : Char) (s seg : JSString) (segs : List JSString) (hc : c ≠ sep)
    (hs : split sep s = seg :: segs) : split sep (c :: s) = (c :: seg) :: segs := by
  rw [split, if_neg hc, hs]

theorem split_append_sep (sep : Char) (a b : JSString) :
    split sep (a ++ sep :: b) = split sep a ++ split sep b := by
  induction a with
  | nil =>
    rw [List.nil_append, split_cons_sep]
    rfl
  | cons c a ih =>
    obtain ⟨seg, segs, hs, -, -⟩ := split_head_tail sep a
    by_cases hc : c = sep
    · subst hc
      rw [List.cons_append, split_cons_sep, split_cons_sep, ih, List.cons_append]
    · rw [List.cons_append, split_cons_ne sep c a seg segs hc hs,
        split_cons_ne sep c (a ++ sep :: b) seg (segs ++ split sep b) hc (by rw [ih, hs]; rfl)]
      rfl

theorem split_of_not_mem (sep : Char) (s : JSString) (h : sep ∉ s) : split sep s = [s] := by
  induction s with
  | nil => rfl
  | cons c s ih =>
    have hc : c ≠ sep := fun e => h (by rw [e]; exact List.mem_cons_self _ _)
    have hs : sep ∉ s := fun e => h (List.mem_cons_of_mem _ e)
    rw [split_cons_ne sep c s s [] hc (ih hs)]

theorem not_mem_of_mem_split (sep : Char) (s seg : JSString) (h : seg ∈ split sep s) :
    sep ∉ seg := by
  induction s generalizing seg with
  | nil =>
    simp only [split, List.mem_singleton] at h
    subst h
    simp
  | cons c s ih =>
    obtain ⟨seg0, segs, hs, -, -⟩ := split_head_tail sep s
    by_cases hc : c = sep
    · subst hc
      rw [split_cons_sep] at h
      rcases List.mem_cons.1 h with rfl | h'
      · simp
      · exact ih seg h'
    · rw [split_cons_ne sep c s seg0 segs hc hs] at h
      rcases List.mem_cons.1 h with rfl | h'
      · intro hm
        rcases List.mem_cons.1 hm with e | e
        · exact hc e.symm
        · exact ih seg0 (by rw [hs]; exact List.mem_cons_self _ _) e
      · exact ih seg (by rw [hs]; exact List.mem_cons_of_mem _ h')

theorem split_joinWith (sep : Char) (parts : List JSString) (hne : parts ≠ [])
    (h : ∀ p ∈ parts, sep ∉ p) : split sep (joinWith sep parts) = parts := by
  induction parts with
  | nil => exact absurd rfl hne
  | cons a rest ih =>
    cases rest with
    | nil =>
      rw [joinWith]
      exact split_of_not_mem sep a (h a (List.mem_cons_self _ _))
    | cons b rest =>
      rw [joinWith, split_append_sep, split_of_not_mem sep a (h a (List.mem_cons_self _ _)),
        ih (List.cons_ne_nil _ _) (fun p hp => h p (List.mem_cons_of_mem _ hp))]
      rfl

/-! ## `normalizeArray` -/

theorem segments_mem (x s : JSString) (h : s ∈ segments x) : s ≠ [] ∧ '/' ∉ s := by
  unfold segments at h
  rw [List.mem_filter] at h
  exact ⟨by simpa using h.2, not_mem_of_mem_split '/' x s h.1⟩

theorem infix_of_mem_segments (x s : JSString) (h : s ∈ segments x) : s <:+: x := by
  unfold segments at h
  rw [List.mem_filter] at h
  exact infix_of_mem_split '/' x s h.1

theorem foldr_normalizeStep_mem (parts : List JSString) (p : JSString)
    (h : p ∈ (parts.foldr normalizeStep ([], 0)).1) :
    p ∈ parts ∧ p ≠ ['.'] ∧ p ≠ ['.', '.'] := by
  induction parts with
  | nil => simp at h
  | cons a rest ih =>
    rw [List.foldr_cons] at h
    unfold normalizeStep at h
    split at h
    · have := ih h
      exact ⟨List.mem_cons_of_mem _ this.1, this.2⟩
    · split at h
      · have := ih h
        exact ⟨List.mem_cons_of_mem _ this.1, this.2⟩
      · split at h
        · have := ih h
          exact ⟨List.mem_cons_of_mem _ this.1, this.2⟩
        · rename_i h1 h2 h3
          rcases List.mem_cons.1 h with rfl | h'
          · exact ⟨List.mem_cons_self _ _, h1, h2⟩
          · have := ih h'
            exact ⟨List.mem_cons_of_mem _ this.1, this.2⟩

theorem normalizeStep_dot (acc : List JSString × Nat) : normalizeStep ['.'] acc = acc := by
  unfold normalizeStep
  rw [if_pos rfl]

theorem normalizeStep_keep (a : JSString) (acc : List JSString × Nat) (h1 : a ≠ ['.'])
    (h2 : a ≠ ['.', '.']) (h3 : acc.2 = 0) : normalizeStep a acc = (a :: acc.1, 0) := by
  unfold normalizeStep
  rw [if_neg h1, if_neg h2, if_neg (by rw [h3]; exact fun e => e rfl)]

theorem foldr_normalizeStep_nodots (parts : List JSString) (h : ['.', '.'] ∉ parts) :
    (parts.foldr normalizeStep ([], 0)).2 = 0
      ∧ (parts.foldr normalizeStep ([], 0)).1 = parts.filter (fun p => p ≠ ['.']) := by
  induction parts with
  | nil => exact ⟨rfl, rfl⟩
  | cons a rest ih =>
    have ha : a ≠ ['.', '.'] := fun e => h (by rw [e]; exact List.mem_cons_self _ _)
    obtain ⟨ih1, ih2⟩ := ih (fun e => h (List.mem_cons_of_mem _ e))
    rw [List.foldr_cons]
    by_cases h1 : a = ['.']
    · subst h1
      rw [normalizeStep_dot]
      refine ⟨ih1, ?_⟩
      rw [ih2, List.filter_cons_of_neg (by simp)]
    · rw [normalizeStep_keep a _ h1 ha ih1]
      refine ⟨rfl, ?_⟩
      rw [List.filter_cons_of_pos (by simpa using h1), ih2]

theorem normalizeArray_nodots (parts : List JSString) (allow : Bool)
    (h : ['.', '.'] ∉ parts) :
    normalizeArray parts allow = parts.filter (fun p => p ≠ ['.']) := by
  obtain ⟨h1, h2⟩ := foldr_normalizeStep_nodots parts h
  unfold normalizeArray
  simp only
  rw [h1, h2]
  cases allow <;> simp

theorem normalizeArray_good (parts : List JSString) (allow : Bool)
    (hparts : ∀ p ∈ parts, p ≠ [] ∧ '/' ∉ p)
    (h : allow = false ∨ ['.', '.'] ∉ parts) :
    ∀ p ∈ normalizeArray parts allow, goodPart p := by
  intro p hp
  have key : p ∈ (parts.foldr normalizeStep ([], 0)).1 := by
    rcases h with h | h
    · subst h
      simpa [normalizeArray] using hp
    · rw [normalizeArray_nodots parts allow h] at hp
      rw [(foldr_normalizeStep_nodots parts h).2]
      exact hp
  obtain ⟨hm, h1, h2⟩ := foldr_normalizeStep_mem parts p key
  exact ⟨(hparts p hm).1, (hparts p hm).2, h1, h2⟩

/-! ## The shape of a normalized path -/

theorem joinWith_cons_cons (sep : Char) (a b : JSString) (rest : List JSString) :
    joinWith sep (a :: b :: rest) = a ++ sep :: joinWith sep (b :: rest) := by
  rw [joinWith]

theorem joinWith_ne_nil (sep : Char) (parts : List JSString) (hne : parts ≠ [])
    (h : ∀ p ∈ parts, p ≠ []) : joinWith sep parts ≠ [] := by
  match parts, hne, h with
  | [a], _, h =>
    rw [joinWith]
    exact h a (List.mem_cons_self _ _)
  | a :: b :: rest, _, h =>
    rw [joinWith_cons_cons]
    simp

theorem joinWith_head (sep : Char) (parts : List JSString) (hne : parts ≠ [])
    (h : ∀ p ∈ parts, p ≠ [] ∧ sep ∉ p) : (joinWith sep parts).head? ≠ some sep := by
  have key : ∀ (a : JSString) (t : JSString), a ≠ [] → sep ∉ a → (a ++ t).head? ≠ some sep := by
    intro a t ha hs
    cases a with
    | nil => exact absurd rfl ha
    | cons c a =>
      simp only [List.cons_append, List.head?_cons, ne_eq, Option.some.injEq]
      intro e
      exact hs (by rw [e]; exact List.mem_cons_self _ _)
  match parts, hne, h with
  | [a], _, h =>
    rw [joinWith]
    have := key a [] (h a (List.mem_cons_self _ _)).1 (h a (List.mem_cons_self _ _)).2
    rwa [List.append_nil] at this
  | a :: b :: rest, _, h =>
    rw [joinWith_cons_cons]
    exact key a _ (h a (List.mem_cons_self _ _)).1 (h a (List.mem_cons_self _ _)).2

theorem normalize_abs (x : JSString) (h : x.head? = some '/') : canonicalForm true (normalize x) := by
  refine ⟨normalizeArray (segments x) false,
    decide (joinWith '/' (normalizeArray (segments x) false) ≠ [] ∧ x.getLast? = some '/'),
    normalizeArray_good _ _ (segments_mem x) (Or.inl rfl), fun e => absurd e (by decide), ?_, ?_⟩
  · intro hp
    rw [hp]
    simp [joinWith]
  · unfold normalize
    simp only [h, decide_True, Bool.not_true, not_true_eq_false, and_false, if_false, if_true]
    by_cases hc : joinWith '/' (normalizeArray (segments x) false) ≠ [] ∧ x.getLast? = some '/'
    · rw [if_pos hc, decide_eq_true hc, if_pos rfl]
    · rw [if_neg hc, decide_eq_false hc, if_neg Bool.false_ne_true, List.append_nil]

theorem normalizeArray_rel_ne_nil (x : JSString) (hdd : ['.', '.'] ∉ segments x)
    (hne : ∃ s ∈ segments x, s ≠ ['.']) : normalizeArray (segments x) true ≠ [] := by
  obtain ⟨s, hs, hs'⟩ := hne
  rw [normalizeArray_nodots _ _ hdd]
  intro e
  have : s ∈ (segments x).filter (fun p => p ≠ ['.']) :=
    List.mem_filter.2 ⟨hs, by simpa using hs'⟩
  rw [e] at this
  simp at this

/-- The value of `normalize` on a path that is not absolute, has no `..`
segment and has a segment other than `.`. -/
theorem normalize_rel_eq (x : JSString) (h : x.head? ≠ some '/') (hdd : ['.', '.'] ∉ segments x)
    (hne : ∃ s ∈ segments x, s ≠ ['.']) :
    normalize x = joinWith '/' (normalizeArray (segments x) true)
      ++ (if decide (x.getLast? = some '/') then ['/'] else []) := by
  have hgood := normalizeArray_good (segments x) true (segments_mem x) (Or.inr hdd)
  have hj : joinWith '/' (normalizeArray (segments x) true) ≠ [] :=
    joinWith_ne_nil _ _ (normalizeArray_rel_ne_nil x hdd hne) (fun p hp => (hgood p hp).1)
  unfold normalize
  simp only [h, decide_False, Bool.not_false, if_false, List.nil_append]
  generalize joinWith '/' (normalizeArray (segments x) true) = J at hj ⊢
  have hp1 : (if J = [] ∧ ¬ False then ['.'] else J) = J := if_neg (fun e => hj e.1)
  rw [hp1]
  by_cases hc : x.getLast? = some '/'
  · rw [if_pos ⟨hj, hc⟩, decide_eq_true hc, if_pos rfl]
  · rw [if_neg (fun e => hc e.2), decide_eq_false hc, if_neg Bool.false_ne_true,
      List.append_nil]

theorem normalize_rel (x : JSString) (h : x.head? ≠ some '/') (hdd : ['.', '.'] ∉ segments x)
    (hne : ∃ s ∈ segments x, s ≠ ['.']) : canonicalForm false (normalize x) := by
  have hnn := normalizeArray_rel_ne_nil x hdd hne
  refine ⟨normalizeArray (segments x) true, decide (x.getLast? = some '/'),
    normalizeArray_good (segments x) true (segments_mem x) (Or.inr hdd),
    fun _ => hnn, fun e => absurd e hnn, ?_⟩
  rw [normalize_rel_eq x h hdd hne, if_neg Bool.false_ne_true, List.nil_append]

theorem noDouble_cons_cons (a b : Char) (t : JSString) :
    noDouble (a :: b :: t) = (!(a = '/' && b = '/') && noDouble (b :: t)) := by
  rw [noDouble]

theorem not_infix_of_noDouble : ∀ (s : JSString), noDouble s = true → ¬ ['/', '/'] <:+: s
  | [], _ => fun h => by
    have := List.eq_nil_of_infix_nil h
    simp at this
  | [a], _ => fun h => by
    have := h.length_le
    simp at this
  | a :: b :: t, hs => fun h => by
    rw [noDouble_cons_cons] at hs
    simp only [Bool.and_eq_true, Bool.not_eq_true', Bool.and_eq_false_iff,
      decide_eq_false_iff_not] at hs
    rcases List.infix_cons_iff.1 h with h1 | h1
    · obtain ⟨u, hu⟩ := h1
      simp only [List.cons_append, List.nil_append, List.cons.injEq] at hu
      rcases hs.1 with e | e
      · exact e hu.1.symm
      · exact e hu.2.1.symm
    · exact not_infix_of_noDouble (b :: t) hs.2 h1

theorem noDouble_of_not_mem : ∀ (s : JSString), '/' ∉ s → noDouble s = true
  | [], _ => rfl
  | [a], _ => rfl
  | a :: b :: t, h => by
    rw [noDouble_cons_cons]
    have ha : a ≠ '/' := fun e => h (by rw [e]; exact List.mem_cons_self _ _)
    have ht : '/' ∉ b :: t := fun e => h (List.mem_cons_of_mem _ e)
    simp [ha, noDouble_of_not_mem (b :: t) ht]

theorem noDouble_append : ∀ (a b : JSString), noDouble a = true → noDouble b = true →
    (a.getLast? ≠ some '/' ∨ b.head? ≠ some '/') → noDouble (a ++ b) = true
  | [], b, _, hb, _ => hb
  | [x], [], _, _, _ => rfl
  | [x], y :: t, _, hb, h => by
    rw [List.singleton_append, noDouble_cons_cons, hb]
    simp only [List.getLast?_singleton, ne_eq, Option.some.injEq, List.head?_cons] at h
    rcases h with h | h
    · simp [h]
    · simp [h]
  | x :: y :: t, b, ha, hb, h => by
    rw [noDouble_cons_cons] at ha
    simp only [Bool.and_eq_true] at ha
    rw [List.cons_append, List.cons_append, noDouble_cons_cons, ha.1, Bool.true_and]
    rw [List.getLast?_cons_cons] at h
    exact noDouble_append (y :: t) b ha.2 hb h

theorem joinWith_noDouble (parts : List JSString) (hne : parts ≠ [])
    (h : ∀ p ∈ parts, p ≠ [] ∧ '/' ∉ p) :
    noDouble (joinWith '/' parts) = true ∧ (joinWith '/' parts).getLast? ≠ some '/' := by
  induction parts with
  | nil => exact absurd rfl hne
  | cons a rest ih =>
    have ha := h a (List.mem_cons_self _ _)
    have hlast : ∀ (s : JSString), s ≠ [] → '/' ∉ s → s.getLast? ≠ some '/' := by
      intro s _ hs e
      exact hs (List.mem_of_mem_getLast? e)
    cases rest with
    | nil =>
      rw [joinWith]
      exact ⟨noDouble_of_not_mem a ha.2, hlast a ha.1 ha.2⟩
    | cons b rest =>
      have hrest : ∀ p ∈ b :: rest, p ≠ [] ∧ '/' ∉ p := fun p hp => h p (List.mem_cons_of_mem _ hp)
      obtain ⟨ih1, ih2⟩ := ih (List.cons_ne_nil _ _) hrest
      have hj : joinWith '/' (b :: rest) ≠ [] :=
        joinWith_ne_nil _ _ (List.cons_ne_nil _ _) (fun p hp => (hrest p hp).1)
      have hh := joinWith_head '/' (b :: rest) (List.cons_ne_nil _ _) hrest
      rw [joinWith_cons_cons]
      constructor
      · apply noDouble_append a _ (noDouble_of_not_mem a ha.2) _ (Or.inl (hlast a ha.1 ha.2))
        cases hJ : joinWith '/' (b :: rest) with
        | nil => rfl
        | cons c u =>
          rw [hJ] at ih1 hh
          rw [noDouble_cons_cons, ih1]
          simp only [List.head?_cons, ne_eq, Option.some.injEq] at hh
          simp [hh]
      · rw [List.getLast?_append_of_ne_nil _ (List.cons_ne_nil _ _)]
        cases hJ : joinWith '/' (b :: rest) with
        | nil => exact absurd hJ hj
        | cons c u =>
          rw [List.getLast?_cons_cons, ← hJ]
          exact ih2

theorem goodParts_sep (parts : List JSString) (h : ∀ p ∈ parts, goodPart p) :
    ∀ p ∈ parts, p ≠ [] ∧ '/' ∉ p :=
  fun p hp => ⟨(h p hp).1, (h p hp).2.1⟩

theorem split_trailing (s : JSString) (t : Bool) :
    split '/' (s ++ (if t then ['/'] else [])) = split '/' s ++ (if t then [[]] else []) := by
  cases t
  · simp
  · simp only [if_true]
    rw [split_append_sep]
    rfl

theorem canonicalForm_head (P : JSString) (h : canonicalForm true P) : P.head? = some '/' := by
  obtain ⟨parts, t, -, -, -, rfl⟩ := h
  rfl

theorem canonicalForm_noDotSegments (abs : Bool) (P : JSString) (h : canonicalForm abs P) :
    noDotSegments P := by
  obtain ⟨parts, t, hgood, -, -, rfl⟩ := h
  have hJ : ∀ seg ∈ split '/' (joinWith '/' parts), seg = [] ∨ seg ∈ parts := by
    intro seg hseg
    cases parts with
    | nil =>
      simp only [joinWith, split, List.mem_singleton] at hseg
      exact Or.inl hseg
    | cons a rest =>
      rw [split_joinWith '/' _ (List.cons_ne_nil _ _)
        (fun p hp => (goodParts_sep _ hgood p hp).2)] at hseg
      exact Or.inr hseg
  have hX : ∀ seg ∈ split '/' (joinWith '/' parts ++ (if t then ['/'] else [])),
      seg = [] ∨ seg ∈ parts := by
    intro seg hseg
    rw [split_trailing, List.mem_append] at hseg
    rcases hseg with h1 | h1
    · exact hJ seg h1
    · cases t
      · simp at h1
      · simp only [if_true, List.mem_singleton] at h1
        exact Or.inl h1
  have hP : ∀ seg ∈ split '/' ((if abs then ['/'] else [])
      ++ (joinWith '/' parts ++ (if t then ['/'] else []))), seg = [] ∨ seg ∈ parts := by
    intro seg hseg
    cases abs
    · simp only [Bool.false_eq_true, if_false, List.nil_append] at hseg
      exact hX seg hseg
    · simp only [if_true, List.singleton_append] at hseg
      rw [split_cons_sep] at hseg
      rcases List.mem_cons.1 hseg with h1 | h1
      · exact Or.inl h1
      · exact hX seg h1
  intro seg hseg
  rcases hP seg hseg with rfl | h1
  · exact ⟨by decide, by decide⟩
  · exact ⟨(hgood seg h1).2.2.1, (hgood seg h1).2.2.2⟩

theorem canonicalForm_noDouble (abs : Bool) (P : JSString) (h : canonicalForm abs P) :
    noDouble P = true := by
  obtain ⟨parts, t, hgood, -, ht, rfl⟩ := h
  by_cases hp : parts = []
  · subst hp
    rw [ht rfl]
    cases abs <;> rfl
  · obtain ⟨h1, h2⟩ := joinWith_noDouble parts hp (goodParts_sep _ hgood)
    have hh := joinWith_head '/' parts hp (goodParts_sep _ hgood)
    have hne := joinWith_ne_nil '/' parts hp (fun p hq => (hgood p hq).1)
    have hX : noDouble (joinWith '/' parts ++ (if t then ['/'] else [])) = true := by
      cases t
      · simpa using h1
      · exact noDouble_append _ _ h1 rfl (Or.inl h2)
    cases abs
    · simpa using hX
    · refine noDouble_append ['/'] _ rfl hX (Or.inr ?_)
      rw [List.head?_append_of_ne_nil _ hne]
      exact hh

theorem canonicalForm_noRepeatedSeparators (abs : Bool) (P : JSString)
    (h : canonicalForm abs P) : noRepeatedSeparators P :=
  not_infix_of_noDouble P (canonicalForm_noDouble abs P h)

/-- A normalized path that is not absolute lists its parts as its segments:
none of them is `..`, and it does not begin with a separator. -/
theorem canonicalForm_rel_segments (y : JSString) (h : canonicalForm false y) :
    y.head? ≠ some '/' ∧ ['.', '.'] ∉ segments y ∧ ∃ s ∈ segments y, s ≠ ['.'] := by
  obtain ⟨parts, t, hgood, hne, -, rfl⟩ := h
  have hp := hne rfl
  have hsep := goodParts_sep _ hgood
  have hJ := joinWith_ne_nil '/' parts hp (fun p hq => (hgood p hq).1)
  have hseg : segments (joinWith '/' parts ++ (if t then ['/'] else [])) = parts := by
    unfold segments
    rw [split_trailing, split_joinWith '/' parts hp (fun p hq => (hsep p hq).2),
      List.filter_append]
    have h1 : parts.filter (fun p => p ≠ []) = parts :=
      List.filter_eq_self.2 (fun p hq => by simpa using (hgood p hq).1)
    rw [h1]
    cases t <;> simp
  simp only [Bool.false_eq_true, if_false, List.nil_append]
  refine ⟨?_, ?_, ?_⟩
  · rw [List.head?_append_of_ne_nil _ hJ]
    exact joinWith_head '/' parts hp hsep
  · rw [hseg]
    intro hm
    exact (hgood _ hm).2.2.2 rfl
  · rw [hseg]
    cases parts with
    | nil => exact absurd rfl hp
    | cons a rest => exact ⟨a, List.mem_cons_self _ _, (hgood a (List.mem_cons_self _ _)).2.2.1⟩

/-! ## Resolved paths are normalized -/

theorem normalize_twice_abs (x : JSString) (h : x.head? = some '/') :
    canonicalForm true (normalize (normalize x)) :=
  normalize_abs _ (canonicalForm_head _ (normalize_abs x h))

theorem normalize_twice_rel (x : JSString) (h : x.head? ≠ some '/')
    (hdd : ['.', '.'] ∉ segments x) (hne : ∃ s ∈ segments x, s ≠ ['.']) :
    canonicalForm false (normalize (normalize x)) := by
  obtain ⟨h1, h2, h3⟩ := canonicalForm_rel_segments _ (normalize_rel x h hdd hne)
  exact normalize_rel _ h1 h2 h3

theorem join_without_root (path1 : JSString) : join [[], path1] = normalize path1 := by
  unfold join
  cases path1 with
  | nil => rfl
  | cons c t => rfl

theorem join_with_root (root path1 : JSString) (hr : root ≠ []) :
    ∃ x, join [root, path1] = normalize x ∧ x.head? = root.head? := by
  unfold join
  cases path1 with
  | nil =>
    refine ⟨root, ?_, rfl⟩
    simp [hr, joinWith]
  | cons c t =>
    refine ⟨root ++ '/' :: c :: t, ?_, List.head?_append_of_ne_nil _ hr⟩
    simp [hr, joinWith]

theorem resolve_head (cwd p : JSString) (hcwd : cwd.head? = some '/') :
    (resolve cwd p).head? = some '/' := by
  have hne : cwd ≠ [] := by
    rintro rfl
    simp at hcwd
  unfold resolve orElse
  simp only
  by_cases hp : p = []
  · simp [hp, hne, hcwd]
  · by_cases ha : p.head? = some '/'
    · simp [hp, ha]
    · simp [hp, ha, hne, hcwd]

/-- A text that `isAbsolute` accepts without a leading `/` (a drive prefix
or a leading `\\`) has a first segment that `isAbsolute` accepts as well. -/
theorem isAbsolute_split (p : JSString) (habs : isAbsolute p = true)
    (hh : p.head? ≠ some '/') :
    ∃ s0 rest, split '/' p = s0 :: rest ∧ isAbsolute s0 = true := by
  rcases (isAbsolute_iff p).1 habs with h | ⟨a, t, ha, rfl⟩ | ⟨t, rfl⟩
  · exact absurd h hh
  · have hne : a ≠ '/' := by simpa using hh
    obtain ⟨seg, segs, hs, -, -⟩ := split_head_tail '/' t
    refine ⟨a :: ':' :: '\\' :: seg, segs, ?_,
      (isAbsolute_iff _).2 (Or.inr (Or.inl ⟨a, seg, ha, rfl⟩))⟩
    exact split_cons_ne '/' a _ _ segs hne
      (split_cons_ne '/' ':' _ _ segs (by decide)
        (split_cons_ne '/' '\\' t seg segs (by decide) hs))
  · obtain ⟨seg, segs, hs, -, -⟩ := split_head_tail '/' t
    refine ⟨'\\' :: '\\' :: seg, segs, ?_, (isAbsolute_iff _).2 (Or.inr (Or.inr ⟨seg, rfl⟩))⟩
    exact split_cons_ne '/' '\\' _ _ segs (by decide)
      (split_cons_ne '/' '\\' t seg segs (by decide) hs)

theorem isAbsolute_first_segment (p : JSString) (habs : isAbsolute p = true)
    (hh : p.head? ≠ some '/') : ∃ s ∈ segments p, s ≠ ['.'] := by
  obtain ⟨s0, rest, hs, h0⟩ := isAbsolute_split p habs hh
  have hne0 : s0 ≠ [] := by
    rintro rfl
    exact absurd h0 (by decide)
  have hnd : s0 ≠ ['.'] := by
    rintro rfl
    exact absurd h0 (by decide)
  refine ⟨s0, ?_, hnd⟩
  unfold segments
  rw [hs]
  exact List.mem_filter.2 ⟨List.mem_cons_self _ _, by simpa using hne0⟩

theorem joinWith_cons_append (sep : Char) (a : JSString) (l : List JSString) :
    ∃ u, joinWith sep (a :: l) = a ++ u := by
  cases l with
  | nil => exact ⟨[], by rw [joinWith, List.append_nil]⟩
  | cons b rest => exact ⟨sep :: joinWith sep (b :: rest), joinWith_cons_cons sep a b rest⟩

/-- Normalizing keeps what `isAbsolute` looks at, for a text it accepts
without a leading `/`: the first segment stays in front. -/
theorem normalize_rel_isAbsolute (x : JSString) (habs : isAbsolute x = true)
    (hh : x.head? ≠ some '/') (hdd : ['.', '.'] ∉ segments x) :
    isAbsolute (normalize x) = true := by
  obtain ⟨s0, rest, hs, h0⟩ := isAbsolute_split x habs hh
  have hne0 : s0 ≠ [] := by
    rintro rfl
    exact absurd h0 (by decide)
  have hnd : s0 ≠ ['.'] := by
    rintro rfl
    exact absurd h0 (by decide)
  have hseg : segments x = s0 :: rest.filter (fun p => p ≠ []) := by
    unfold segments
    rw [hs, List.filter_cons_of_pos (by simpa using hne0)]
  have hne : ∃ s ∈ segments x, s ≠ ['.'] := ⟨s0, by rw [hseg]; exact List.mem_cons_self _ _, hnd⟩
  rw [normalize_rel_eq x hh hdd hne, normalizeArray_nodots _ _ hdd, hseg,
    List.filter_cons_of_pos (by simpa using hnd)]
  obtain ⟨u, hu⟩ := joinWith_cons_append '/' s0
    ((rest.filter (fun p => p ≠ [])).filter (fun p => p ≠ ['.']))
  rw [hu, List.append_assoc]
  exact isAbsolute_append s0 _ h0

theorem isAbsolute_of_head (p : JSString) (h : p.head? = some '/') : isAbsolute p = true :=
  (isAbsolute_iff p).2 (Or.inl h)

theorem resolved_canonical (g : Gen) (P : JSString) (hP : resolvePath g = .resolved P)
    (hroot : g.root = [] ∨ g.root.head? = some '/') :
    ∃ abs, canonicalForm abs P ∧ isAbsolute P = true ∧
      ∀ d, decode g.path = .str d → (g.root ≠ [] ∨ d.head? = some '/') → abs = true := by
  obtain ⟨d, hd, -, hc⟩ := (resolvePath_resolved_iff g P).1 hP
  obtain ⟨-, c2, c3, -, c5⟩ := (checks_resolved_iff _ _ _ _).1 hc
  generalize hp1 : (if truthy g.index && trailingSlashOf g.path
    then d ++ g.index.getD [] else d) = path1 at c2 c3 c5
  by_cases hr : g.root = []
  · rw [hr, join_without_root] at c5
    have habs : isAbsolute path1 = true := by
      by_contra h
      exact c2 ⟨hr, h⟩
    have hdots : ¬ ['.', '.'] <:+: path1 := by
      intro h
      exact c3 ⟨hr, (indexOf_ne_iff path1 _).2 h⟩
    by_cases hh : path1.head? = some '/'
    · have hcan := normalize_twice_abs path1 hh
      rw [← c5] at hcan
      exact ⟨true, hcan, isAbsolute_of_head P (canonicalForm_head P hcan), fun _ _ _ => rfl⟩
    · have hdd : ['.', '.'] ∉ segments path1 := fun h => hdots (infix_of_mem_segments _ _ h)
      have hne := isAbsolute_first_segment path1 habs hh
      obtain ⟨h1, h2, h3⟩ := canonicalForm_rel_segments _ (normalize_rel path1 hh hdd hne)
      refine ⟨false, ?_, ?_, ?_⟩
      · rw [c5]
        exact normalize_rel _ h1 h2 h3
      · rw [c5]
        exact normalize_rel_isAbsolute _ (normalize_rel_isAbsolute path1 habs hh hdd) h1 h2
      · intro d' hd' hcond
        rw [hd] at hd'
        cases hd'
        rcases hcond with h | h
        · exact absurd hr h
        · exfalso
          apply hh
          rw [← hp1]
          have hdne : d ≠ [] := by
            rintro rfl
            simp at h
          split
          · rw [List.head?_append_of_ne_nil _ hdne]
            exact h
          · exact h
  · have hhead : g.root.head? = some '/' := by
      rcases hroot with h | h
      · exact absurd h hr
      · exact h
    obtain ⟨x, hx, hxh⟩ := join_with_root g.root path1 hr
    have hcan := normalize_twice_abs x (by rw [hxh, hhead])
    rw [← hx, ← c5] at hcan
    exact ⟨true, hcan, isAbsolute_of_head P (canonicalForm_head P hcan), fun _ _ _ => rfl⟩

/-- C15, as the code has it. Whenever `send` resolves to a path `P`, no
segment of `P` is `.` or `..`, `P` has no repeated separators, and `P` is
absolute in the sense of the code's own `isAbsolute`; it begins with `/`, and
so is an absolute path for the filesystem, when a root is configured or the
decoded path begins with `/`. The working directory, from which a relative
root option is resolved, is absolute. -/
theorem resolved_path_normalized (cwd raw : JSString) (opts : Opts) (g : Gen) (d P : JSString)
    (hcwd : cwd.head? = some '/') (hs : send cwd raw opts = some g)
    (hd : decodeURIComponent raw = some d) (hP : resolvePath g = .resolved P) :
    noDotSegments P ∧ noRepeatedSeparators P ∧ isAbsolute P = true
      ∧ ((truthy opts.root = true ∨ d.head? = some '/') → P.head? = some '/') := by
  obtain ⟨-, hpath, -, -, hroot⟩ := send_eq_some _ _ _ _ hs
  have hr : g.root = [] ∨ g.root.head? = some '/' := by
    rw [hroot]
    split
    · exact Or.inr (resolve_head cwd _ hcwd)
    · exact Or.inl rfl
  obtain ⟨abs, hcan, hia, habs⟩ := resolved_canonical g P hP hr
  refine ⟨canonicalForm_noDotSegments abs P hcan, canonicalForm_noRepeatedSeparators abs P hcan,
    hia, ?_⟩
  intro hcond
  have hdec : decode g.path = .str d := by
    rw [hpath]
    simp only [decode, PathVal.toJSString, hd]
  have : abs = true := by
    apply habs d hdec
    rcases hcond with h | h
    · left
      rw [hroot, h, if_pos rfl]
      exact resolve_ne_nil _ _
    · exact Or.inr h
  subst this
  exact canonicalForm_head P hcan

theorem resolved_path_normalized_witness :
    ((str "/").head? = some '/'
      ∧ send (str "/") (str "/a/./b//c.txt") { root := some (str "/srv/www") }
        = some ⟨str "/srv/www", none, 0, false, .str (str "/a/./b//c.txt")⟩
      ∧ decodeURIComponent (str "/a/./b//c.txt") = some (str "/a/./b//c.txt")
      ∧ resolvePath ⟨str "/srv/www", none, 0, false, .str (str "/a/./b//c.txt")⟩
        = .resolved (str "/srv/www/a/b/c.txt"))
      ∧ noDotSegments (str "/srv/www/a/b/c.txt")
      ∧ noRepeatedSeparators (str "/srv/www/a/b/c.txt")
      ∧ isAbsolute (str "/srv/www/a/b/c.txt") = true
      ∧ (str "/srv/www/a/b/c.txt").head? = some '/' :=
  ⟨by decide,
    (resolved_path_normalized (str "/") (str "/a/./b//c.txt") { root := some (str "/srv/www") }
      ⟨str "/srv/www", none, 0, false, .str (str "/a/./b//c.txt")⟩ (str "/a/./b//c.txt")
      (str "/srv/www/a/b/c.txt") (by decide) (by decide) (by decide) (by decide)).imp_right
      (fun h => ⟨h.1, h.2.1, h.2.2 (Or.inl (by decide))⟩)⟩

/-- C15, as stated, fails: with no root, the raw path `C:\x` passes
`isAbsolute` for its drive prefix, resolves to `C:\x` and reaches the stat
probe; the resolved path does not begin with `/`, so it is not an absolute
path for the POSIX `path` functions the run has used on it. -/
theorem drive_prefix_resolved_relative :
    send (str "/") (str "C:\\x") {} = some ⟨[], none, 0, false, .str (str "C:\\x")⟩
      ∧ resolvePath ⟨[], none, 0, false, .str (str "C:\\x")⟩ = .resolved (str "C:\\x")
      ∧ (Gen.run (fun _ => .ok 0) ⟨[], none, 0, false, .str (str "C:\\x")⟩).trace.head?
        = some (.fsStat (str "C:\\x"))
      ∧ (str "C:\\x").head? ≠ some '/' := by
  decide

end KoaSend
